import Mathlib

/-!
Shallow embedding of `src/caret_analyze/record/record.py` (classes `Record`,
`Records`, the three merge algorithms and the free dispatch functions).

Modelling conventions:
* A Python `Record` holds a dict `_data : column name → value` together with a
  column set `_columns`; on every code path exercised here `_columns` equals
  the key set of `_data`, so a record is embedded as its insertion-ordered
  association list (Python dicts preserve insertion order; assignment updates
  in place, deletion removes the entry).  `Record.equals` compares the column
  set and the dict, i.e. it is order-insensitive: see `Record.equals` below.
* Values are 64-bit-range integers (Python ints, never wrapped), plus the
  transient values the merge algorithms store in rows: booleans
  (`has_valid_join_key`, …), `None`, references to other records
  (`sub_record`, modelled as the index of the referenced row in the working
  list, which matches Python object identity because every working row is a
  distinct object), and references to mutable `set` objects
  (`sink_from_key` during address tracking, modelled as an index into an
  explicit store so that Python's object aliasing is preserved).
* `Records` keeps its row list and its declared column set `_columns`
  separately; the constructor recomputes the set from the rows, while
  in-place mutators update it with unions / differences exactly as the
  source does.
* Python's `list.sort` is stable; it is embedded as a stable insertion sort
  (a stable sort's output is uniquely determined, so any stable sort is a
  faithful translation).  `sys.maxsize` is 2^63 - 1.
-/

inductive Value where
  | i (n : Int)
  | b (v : Bool)
  | none
  | ref (idx : Nat)
  | setref (idx : Nat)
  deriving DecidableEq, Repr

/-- A row: Python `Record`'s insertion-ordered dict. -/
structure Record where
  data : List (String × Value)
  deriving DecidableEq, Repr

def Record.lookup (r : Record) (k : String) : Option Value :=
  (r.data.find? (fun p => p.1 == k)).map (·.2)

/-- Python `record.get(key)`/`record._data[key]`.  Raises `KeyError` in Python
when the key is absent; every call site in the source guards the access, and
the embedding returns `Value.none` there. -/
def Record.get (r : Record) (k : String) : Value :=
  (r.lookup k).getD .none

/-- Python `key in record.columns` (equivalently `key in record._data`). -/
def Record.hasKey (r : Record) (k : String) : Bool :=
  r.data.any (fun p => p.1 == k)

/-- Python `record.add(key, value)` / dict assignment: overwrite in place when
present, append otherwise. -/
def Record.add (r : Record) (k : String) (v : Value) : Record :=
  if r.hasKey k then ⟨r.data.map (fun p => if p.1 == k then (k, v) else p)⟩
  else ⟨r.data ++ [(k, v)]⟩

/-- Python `del record._data[key]` (no-op when absent, as in
`Record.drop_columns`). -/
def Record.eraseK (r : Record) (k : String) : Record :=
  ⟨r.data.filter (fun p => ¬ p.1 == k)⟩

/-- Python `Record.drop_columns(columns, inplace=True)`. -/
def Record.dropCols (r : Record) (ks : List String) : Record :=
  ks.foldl Record.eraseK r

/-- Python `Record.merge(other, inplace=True)`, i.e. `self._data.update(other.data)`:
`other`'s values win on shared keys. -/
def Record.merge (self other : Record) : Record :=
  other.data.foldl (fun acc p => acc.add p.1 p.2) self

/-- Python `record.columns` as a set. -/
def Record.columns (r : Record) : Finset String :=
  r.data.foldl (fun s p => insert p.1 s) ∅

/-- Python `Record.equals`: same column set and same dict (order-insensitive). -/
def Record.equals (a b : Record) : Prop :=
  (∀ p ∈ a.data, b.lookup p.1 = some p.2) ∧ (∀ p ∈ b.data, a.lookup p.1 = some p.2)

instance (a b : Record) : Decidable (a.equals b) := by
  unfold Record.equals; infer_instance

/-- `Records.__init__`: the declared column set is recomputed as the union of
the rows' column sets. -/
def unionCols (rows : List Record) : Finset String :=
  rows.foldl (fun s r => s ∪ r.columns) ∅

/-- Python `Records`: ordered rows plus the declared column set `_columns`. -/
structure Records where
  data : List Record
  columns : Finset String
  deriving DecidableEq

def Records.init (rows : List Record) : Records :=
  ⟨rows, unionCols rows⟩

/-- Python `Records.append`. -/
def Records.append (rs : Records) (r : Record) : Records :=
  ⟨rs.data ++ [r], rs.columns ∪ r.columns⟩

/-- Python `Records.equals`: row count, ordered per-row equality, declared
column set. -/
def Records.equals (a b : Records) : Prop :=
  a.data.length = b.data.length ∧
  (∀ pr ∈ a.data.zip b.data, Record.equals pr.1 pr.2) ∧
  a.columns = b.columns

instance (a b : Records) : Decidable (a.equals b) := by
  unfold Records.equals; infer_instance

/-- Python `sys.maxsize`, the sentinel stamp for rows missing the key. -/
def maxsize : Int := 9223372036854775807

/-- Sort-key extraction: all sorted-on columns hold ints in the source
(Python `bool` is an `int` subtype, hence the `b` case). -/
def getIntV : Value → Int
  | .i n => n
  | .b v => if v then 1 else 0
  | _ => 0

def sortVal (r : Record) (k : String) : Int := getIntV (r.get k)

/-- Lexicographic comparison of the (primary, secondary) sort keys. -/
def pairLtB (a b : Int × Int) : Bool :=
  if a.1 < b.1 then true else if a.1 = b.1 then decide (a.2 < b.2) else false

/-- Stable insertion: an element keeps its place before later elements with an
equal key. -/
def insSorted (key : Record → Int × Int) (x : Record) : List Record → List Record
  | [] => [x]
  | y :: ys => if pairLtB (key y) (key x) then y :: insSorted key x ys else x :: y :: ys

/-- Stable sort by a key function; the unique stable-sort result, hence equal
to Python `list.sort(key=...)`. -/
def stableSortBy (key : Record → Int × Int) (l : List Record) : List Record :=
  l.foldr (insSorted key) []

/-- The key tuple used by `Records.sort` (descending negates, as the source
does). -/
def recSortKey (k : String) (sk : Option String) (asc : Bool) (r : Record) : Int × Int :=
  match sk with
  | Option.none => if asc then (sortVal r k, 0) else (-(sortVal r k), 0)
  | some s => if asc then (sortVal r k, sortVal r s) else (-(sortVal r k), -(sortVal r s))

def Records.sortData (rows : List Record) (k : String) (sk : Option String) (asc : Bool) :
    List Record :=
  stableSortBy (recSortKey k sk asc) rows

/-- `Records.sort(..., inplace=False)`: sorted deep copy fed back through the
constructor. -/
def Records.sort (rs : Records) (k : String) (sk : Option String) (asc : Bool) : Records :=
  Records.init (Records.sortData rs.data k sk asc)

/-- `Records.sort(..., inplace=True)`: rows reordered, `_columns` untouched. -/
def Records.sortIP (rs : Records) (k : String) (sk : Option String) (asc : Bool) : Records :=
  ⟨Records.sortData rs.data k sk asc, rs.columns⟩

/-- `Records.concat(other, inplace=False)`. -/
def Records.concat (a b : Records) : Records :=
  Records.init (a.data ++ b.data)

/-- `Records.concat(other, inplace=True)`: `_data += other._data`,
`_columns |= other.columns`. -/
def Records.concatIP (a b : Records) : Records :=
  ⟨a.data ++ b.data, a.columns ∪ b.columns⟩

/-- `Records.drop_columns(columns, inplace=False)`. -/
def Records.drop_columns (rs : Records) (ks : List String) : Records :=
  Records.init (rs.data.map (Record.dropCols · ks))

/-- `Records.drop_columns(columns, inplace=True)`: rows mutated,
`_columns -= set(columns)`. -/
def Records.dropColsIP (rs : Records) (ks : List String) : Records :=
  ⟨rs.data.map (Record.dropCols · ks), rs.columns \ ks.toFinset⟩

/-- `MergeSideInfo.LEFT` / `.RIGHT` (an `IntEnum`). -/
def LEFTv : Value := .i 0
def RIGHTv : Value := .i 1

/-- Python truthiness, for `if record.get('has_merge_stamp')`-style tests
(the tested values are always proper booleans in the source). -/
def truthy : Value → Bool
  | .i n => decide (n ≠ 0)
  | .b v => v
  | .none => false
  | .ref _ => true
  | .setref _ => true

def hows : List String := ["inner", "left", "right", "outer"]

/-! ## Equality merge: `Records.merge(right_records, join_key, how)` -/

/-- The per-row annotation loop of `Records.merge` (lines 857-862): the
`has_valid_join_key` flag is computed before the add, the `merge_stamp`
presence test after it, exactly as the source's evaluation order. -/
def annotateEq (jk : String) (r : Record) : Record :=
  let r1 := r.add "has_valid_join_key" (.b (r.hasKey jk))
  if r1.hasKey jk then r1.add "merge_stamp" (r1.get jk)
  else r1.add "merge_stamp" (.i maxsize)

/-- Walk state of `Records.merge`: the output being built, the `empty_records`
bucket, and the pending `left_record_`. -/
structure EqWalkSt where
  merged : Records
  empty : List Record
  leftR : Option Record

/-- One iteration of the main loop of `Records.merge` (lines 869-895). -/
def eqMergeStep (jk : String) (ml mr : Bool) (st : EqWalkSt) (r : Record) : EqWalkSt :=
  if r.get "has_valid_join_key" = Value.b false then
    if r.get "side" = LEFTv ∧ ml = true then { st with merged := st.merged.append r }
    else if r.get "side" = RIGHTv ∧ mr = true then { st with merged := st.merged.append r }
    else st
  else
    let joinValue := r.get jk
    if r.get "side" = LEFTv then
      let empty' :=
        match st.leftR with
        | some l => if l.get "found_right_record" = Value.b false then st.empty ++ [l] else st.empty
        | Option.none => st.empty
      { merged := st.merged, empty := empty',
        leftR := some (r.add "found_right_record" (.b false)) }
    else
      match st.leftR with
      | some l =>
        if joinValue = l.get jk ∧ truthy (r.get "has_valid_join_key") = true then
          let l' := l.add "found_right_record" (.b true)
          { merged := st.merged.append (Record.merge r l'),
            empty := st.empty, leftR := some l' }
        else { st with empty := st.empty ++ [r] }
      | Option.none => { st with empty := st.empty ++ [r] }

/-- The flush of the last pending left record (line 896) followed by the
`empty_records` emission loop (lines 899-904). -/
def eqFlushEmpty (ml mr : Bool) (st : EqWalkSt) : Records :=
  let empty2 :=
    match st.leftR with
    | some l => if l.get "found_right_record" = Value.b false then st.empty ++ [l] else st.empty
    | Option.none => st.empty
  empty2.foldl (fun m e =>
      if e.get "side" = LEFTv ∧ ml = true then m.append e
      else if e.get "side" = RIGHTv ∧ mr = true then m.append e
      else m) st.merged

def eqScratch : List String := ["side", "merge_stamp", "has_valid_join_key", "found_right_record"]

/-- The working list of `Records.merge`: the side-annotated rows of both
inputs concatenated, annotated with the join-key scratch columns and stably
sorted by `(merge_stamp, side)` ascending (lines 848-864). -/
def eqWorkList (left right : Records) (jk : String) : List Record :=
  Records.sortData
    ((left.data.map (fun r => r.add "side" LEFTv)
        ++ right.data.map (fun r => r.add "side" RIGHTv)).map (annotateEq jk))
    "merge_stamp" (some "side") true

/-- `Records.merge` without the `how` assertion, returning
`(result, left after the call, right after the call)`: the inputs are
annotated with `side` in place and stripped of the scratch columns at the
end (their `_columns` sets never see the annotation, only the final
`drop_columns`). -/
def Records.mergeOp (left right : Records) (jk : String) (how : String) : Records × Records × Records :=
  let ml := how == "left" || how == "outer"
  let mr := how == "right" || how == "outer"
  let lAnn : Records := ⟨left.data.map (fun r => r.add "side" LEFTv), left.columns⟩
  let rAnn : Records := ⟨right.data.map (fun r => r.add "side" RIGHTv), right.columns⟩
  let ws := eqWorkList left right jk
  let st := ws.foldl (eqMergeStep jk ml mr) ⟨Records.init [], [], Option.none⟩
  let merged := eqFlushEmpty ml mr st
  (merged.dropColsIP eqScratch, lAnn.dropColsIP eqScratch, rAnn.dropColsIP eqScratch)

/-- `Records.merge` with its `assert how in [...]` (line 846): the assertion
fires before the inputs are annotated, so on failure both inputs are
returned untouched. -/
def Records.mergeChecked (left right : Records) (jk how : String) :
    Except Unit Records × Records × Records :=
  if how ∈ hows then
    let t := Records.mergeOp left right jk how
    (Except.ok t.1, t.2.1, t.2.2)
  else (Except.error (), left, right)

/-- Shorthand for building a row literal. -/
def recOf (l : List (String × Int)) : Record := ⟨l.map (fun p => (p.1, Value.i p.2))⟩

def recsOf (l : List (List (String × Int))) : Records := Records.init (l.map recOf)

/-! ## Sequential merge: `Records.merge_sequencial(right, lstamp, rstamp, join_key, how)` -/

/-- The annotation loop of `merge_sequencial` (lines 942-953); the row already
carries its `side` column when this runs. -/
def annotateSeq (jk : Option String) (ls rs : String) (r : Record) : Record :=
  let r1 := r.add "has_valid_join_key" (.b (jk.elim true (fun k => r.hasKey k)))
  if r1.get "side" = LEFTv ∧ r1.hasKey ls = true then
    (r1.add "merge_stamp" (r1.get ls)).add "has_merge_stamp" (.b true)
  else if r1.get "side" = RIGHTv ∧ r1.hasKey rs = true then
    (r1.add "has_merge_stamp" (.b true)).add "merge_stamp" (r1.get rs)
  else
    (r1.add "merge_stamp" (.i maxsize)).add "has_merge_stamp" (.b false)

/-- `get_join_value` (lines 957-963): `0` when there is no join key, `None`
(here `Option.none`) when the key is absent from the row. -/
def getJoinValue (jk : Option String) (r : Record) : Option Value :=
  match jk with
  | Option.none => some (Value.i 0)
  | some k => if r.hasKey k then some (r.get k) else Option.none

/-- `left_records_with_empty_sub_record`: a dict keyed by join value; Python
dict assignment overwrites in place. -/
def pendingSet (l : List (Value × Nat)) (v : Value) (i : Nat) : List (Value × Nat) :=
  if l.any (fun p => p.1 == v) then l.map (fun p => if p.1 == v then (v, i) else p)
  else l ++ [(v, i)]

def pendingGet (l : List (Value × Nat)) (v : Value) : Option Nat :=
  (l.find? (fun p => p.1 == v)).map (·.2)

def pendingErase (l : List (Value × Nat)) (v : Value) : List (Value × Nat) :=
  l.filter (fun p => ¬ p.1 == v)

/-- One iteration of the first pass of `merge_sequencial` (lines 965-981),
acting on position `i` of the sorted working list.  A bound `sub_record` is
the index of the right row, mirroring the Python object reference. -/
def seqPass1Step (jk : Option String) (st : List Record × List (Value × Nat)) (i : Nat) :
    List Record × List (Value × Nat) :=
  let ws := st.1
  let pending := st.2
  let r := ws.getD i ⟨[]⟩
  if r.get "side" = LEFTv ∧ truthy (r.get "has_merge_stamp") = true then
    let r' := r.add "sub_record" Value.none
    let ws' := ws.set i r'
    match getJoinValue jk r' with
    | Option.none => (ws', pending)
    | some jv => (ws', pendingSet pending jv i)
  else if r.get "side" = RIGHTv ∧ truthy (r.get "has_merge_stamp") = true then
    match getJoinValue jk r with
    | Option.none => (ws, pending)
    | some jv =>
      match pendingGet pending jv with
      | some li => (ws.set li ((ws.getD li ⟨[]⟩).add "sub_record" (.ref i)), pendingErase pending jv)
      | Option.none => (ws, pending)
  else (ws, pending)

def seqPass1 (jk : Option String) (ws : List Record) : List Record :=
  ((List.range ws.length).foldl (seqPass1Step jk) (ws, [])).1

/-- An emission of the second pass: a row kept alone, or a (left, sub_record)
pair, identified by position (= Python object identity). -/
inductive Emit where
  | single (i : Nat)
  | pair (i j : Nat)
  deriving DecidableEq, Repr

/-- One iteration of the second pass of `merge_sequencial` (lines 983-1020)
at position `i`; `added` is the set of already-recorded rows. -/
def seqPass2Step (ws2 : List Record) (ml mr : Bool) (st : List Emit × List Nat) (i : Nat) :
    List Emit × List Nat :=
  let emits := st.1
  let added := st.2
  if i ∈ added then st
  else
    let r := ws2.getD i ⟨[]⟩
    if ¬ truthy (r.get "has_merge_stamp") = true ∨ ¬ truthy (r.get "has_valid_join_key") = true then
      if r.get "side" = RIGHTv ∧ mr = true then (emits ++ [.single i], added ++ [i])
      else if r.get "side" = LEFTv ∧ ml = true then (emits ++ [.single i], added ++ [i])
      else st
    else if r.get "side" = RIGHTv then
      if mr = true then (emits ++ [.single i], added ++ [i]) else st
    else
      match r.get "sub_record" with
      | .ref j =>
        if j ∈ added then
          if ml = true then (emits ++ [.single i], added ++ [i]) else st
        else (emits ++ [.pair i j], added ++ [i, j])
      | _ => if ml = true then (emits ++ [.single i], added ++ [i]) else st

def seqPass2 (ws2 : List Record) (ml mr : Bool) : List Emit :=
  ((List.range ws2.length).foldl (seqPass2Step ws2 ml mr) ([], [])).1

/-- Rendering an emission: a single row is appended as the object itself; a
pair is `Record().merge(current).merge(sub)` (lines 1015-1017), so the right
row's values overwrite the left row's on shared columns. -/
def renderEmit (ws2 : List Record) : Emit → Record
  | .single i => ws2.getD i ⟨[]⟩
  | .pair i j => Record.merge (Record.merge ⟨[]⟩ (ws2.getD i ⟨[]⟩)) (ws2.getD j ⟨[]⟩)

def seqScratch : List String :=
  ["side", "merge_stamp", "has_merge_stamp", "has_valid_join_key", "sub_record"]

/-- The working list of `merge_sequencial`: side-annotated input rows
concatenated, annotated with the stamp scratch columns and stably sorted by
`merge_stamp` ascending (lines 933-955). -/
def seqWorkList (left right : Records) (ls rs : String) (jk : Option String) : List Record :=
  Records.sortData
    ((left.data.map (fun r => r.add "side" LEFTv)
        ++ right.data.map (fun r => r.add "side" RIGHTv)).map (annotateSeq jk ls rs))
    "merge_stamp" Option.none true

/-- `Records.merge_sequencial` without the `how` assertion, returning
`(result, left after the call, right after the call)`. -/
def Records.mergeSequencialOp (left right : Records) (ls rs : String) (jk : Option String)
    (how : String) : Records × Records × Records :=
  let ml := how == "left" || how == "outer"
  let mr := how == "right" || how == "outer"
  let lAnn : Records := ⟨left.data.map (fun r => r.add "side" LEFTv), left.columns⟩
  let rAnn : Records := ⟨right.data.map (fun r => r.add "side" RIGHTv), right.columns⟩
  let ws2 := seqPass1 jk (seqWorkList left right ls rs jk)
  let merged := Records.init ((seqPass2 ws2 ml mr).map (renderEmit ws2))
  (merged.dropColsIP seqScratch, lAnn.dropColsIP seqScratch, rAnn.dropColsIP seqScratch)

/-- `Records.merge_sequencial` with its `assert how in [...]` (line 924),
which fires before any annotation. -/
def Records.mergeSequencialChecked (left right : Records) (ls rs : String) (jk : Option String)
    (how : String) : Except Unit Records × Records × Records :=
  if how ∈ hows then
    let t := Records.mergeSequencialOp left right ls rs jk how
    (Except.ok t.1, t.2.1, t.2.2)
  else (Except.error (), left, right)

/-! ## Address-track merge: `Records.merge_sequencial_for_addr_track(...)`

The three inputs are deep-copied at entry (lines 1050-1052), so the caller's
`Records` are never touched.  During the sweep each processing record's
`sink_from_key` entry holds a Python `set` object; records can share one set
object (after `merge_processing_record_keys` assigns the same `merged_set` to
two records) and `set.add` mutates the object in place, so the embedding
gives each set object a cell in an explicit `store` and rows hold
`Value.setref` indices into it. -/

/-- Python `set.add`. -/
def listInsert (l : List Int) (x : Int) : List Int :=
  if x ∈ l then l else l ++ [x]

/-- Python `set | set` (value semantics; element order is unobservable). -/
def listUnion (a b : List Int) : List Int :=
  b.foldl listInsert a

/-- Python `a & b` truthiness: a nonempty intersection. -/
def interNonempty (a b : List Int) : Bool := a.any (· ∈ b)

/-- Python `set == set`: same elements. -/
def setEqL (a b : List Int) : Bool := a.all (· ∈ b) && b.all (· ∈ a)

structure AddrSt where
  store : List (List Int)
  processing : List Record
  merged : Records

/-- The set object currently referenced by a processing record's
`sink_from_key` entry. -/
def cellOf (store : List (List Int)) (sfk : String) (r : Record) : List Int :=
  match r.get sfk with
  | .setref n => store.getD n []
  | _ => []

/-- One iteration of the lazy `filter` loop inside
`merge_processing_record_keys` (lines 1076-1088), with `pIdx` the record the
COPY extended and `q` the position being visited: the predicate is evaluated
against the current state, and on a match both records are repointed at a
fresh `merged_set` object. -/
def addrMergeKeysStep (sfk : String) (pIdx : Nat) (st : AddrSt) (q : Nat) : AddrSt :=
  let pc := cellOf st.store sfk (st.processing.getD pIdx ⟨[]⟩)
  let qc := cellOf st.store sfk (st.processing.getD q ⟨[]⟩)
  if interNonempty qc pc = true ∧ setEqL qc pc = false then
    let m := listUnion pc qc
    let ni := st.store.length
    { store := st.store ++ [m],
      processing :=
        (st.processing.set pIdx ((st.processing.getD pIdx ⟨[]⟩).add sfk (.setref ni))).set q
          ((st.processing.getD q ⟨[]⟩).add sfk (.setref ni)),
      merged := st.merged }
  else st

/-- One iteration of the reverse-chronological sweep (lines 1090-1114). -/
def addrStep (srcK copyFromK copyToK sfk : String) (st : AddrSt) (r : Record) : AddrSt :=
  if r.get "type" = Value.i 2 then
    -- SINK: `record._data[sink_from_key] = {record.get(sink_from_key)}`
    let v := getIntV (r.get sfk)
    let r' := r.add sfk (.setref st.store.length)
    { store := st.store ++ [[v]], processing := st.processing ++ [r'], merged := st.merged }
  else if r.get "type" = Value.i 1 then
    -- COPY: extend the first matching processing record's set in place,
    -- then run `merge_processing_record_keys` on it, and break.
    let toV := getIntV (r.get copyToK)
    match st.processing.findIdx? (fun x => toV ∈ cellOf st.store sfk x) with
    | Option.none => st
    | some p =>
      let ci := match (st.processing.getD p ⟨[]⟩).get sfk with
        | .setref n => n
        | _ => st.store.length
      let store1 := st.store.set ci (listInsert (st.store.getD ci []) (getIntV (r.get copyFromK)))
      let st1 : AddrSt := { st with store := store1 }
      (List.range st1.processing.length).foldl (addrMergeKeysStep sfk p) st1
  else if r.get "type" = Value.i 0 then
    -- SOURCE: walk a snapshot of the processing list, removing each record
    -- whose set contains the source key, merging the source into it
    -- (source values overwrite) and emitting it.
    let sv := getIntV (r.get srcK)
    let hit := st.processing.filter (fun x => sv ∈ cellOf st.store sfk x)
    let rest := st.processing.filter (fun x => ¬ sv ∈ cellOf st.store sfk x)
    { store := st.store, processing := rest,
      merged := hit.foldl (fun m x => m.append (Record.merge x r)) st.merged }
  else st

/-- `RecordType.SOURCE/COPY/SINK` annotation of the three inputs
(lines 1056-1064): `type` first, then `timestamp` from the stamp column. -/
def annotateAddr (ty : Value) (stampK : String) (r : Record) : Record :=
  let r1 := r.add "type" ty
  r1.add "timestamp" (r1.get stampK)

/-- The working list of the address-track sweep: annotated sources, copies
and sinks concatenated, stably sorted by `timestamp` descending. -/
def addrWorkList (src : Records) (srcStampK : String) (copy : Records) (copyStampK : String)
    (sink : Records) (sinkStampK : String) : List Record :=
  let srcRows := src.data.map (annotateAddr (.i 0) srcStampK)
  let copyRows := copy.data.map (annotateAddr (.i 1) copyStampK)
  let sinkRows := sink.data.map (annotateAddr (.i 2) sinkStampK)
  Records.sortData (srcRows ++ copyRows ++ sinkRows) "timestamp" Option.none false

/-- The sweep state after processing the whole working list. -/
def addrSweep (srcK copyFromK copyToK sfk : String) (ws : List Record) : AddrSt :=
  ws.foldl (addrStep srcK copyFromK copyToK sfk) ⟨[], [], Records.init []⟩

/-- `Records.merge_sequencial_for_addr_track`. -/
def Records.mergeSequencialForAddrTrack (self : Records) (srcStampK srcK : String)
    (copy : Records) (copyStampK copyFromK copyToK : String)
    (sink : Records) (sinkStampK sfk : String) : Records :=
  let ws := addrWorkList self srcStampK copy copyStampK sink sinkStampK
  let st := addrSweep srcK copyFromK copyToK sfk ws
  st.merged.dropColsIP ["type", "timestamp", sfk]

/-! ## Free functions `merge`, `merge_sequencial`, `merge_sequencial_for_addr_track`

They assert that every argument has the same concrete `Records` kind
(`assert type(a) == type(b)`) before dispatching to the receiver's method.
The spec names two kinds (the pure-Python `Records` embedded here and a
pybind-accelerated one); the kind only feeds the type-equality assert. -/

inductive RecordsKind where
  | python
  | cpp
  deriving DecidableEq

def mergeFree (lk rk : RecordsKind) (l r : Records) (jk how : String) :
    Except Unit Records × Records × Records :=
  if lk = rk then Records.mergeChecked l r jk how
  else (Except.error (), l, r)

def mergeSequencialFree (lk rk : RecordsKind) (l r : Records) (ls rs : String)
    (jk : Option String) (how : String) : Except Unit Records × Records × Records :=
  if lk = rk then Records.mergeSequencialChecked l r ls rs jk how
  else (Except.error (), l, r)

def mergeSequencialForAddrTrackFree (sk ck kk : RecordsKind) (src : Records)
    (srcStampK srcK : String) (copy : Records) (copyStampK copyFromK copyToK : String)
    (sink : Records) (sinkStampK sfk : String) : Except Unit Records :=
  if sk = ck ∧ ck = kk then
    Except.ok (Records.mergeSequencialForAddrTrack src srcStampK srcK copy copyStampK
      copyFromK copyToK sink sinkStampK sfk)
  else Except.error ()

/-! ## Auxiliary definitions used by the verification

`eqTagged` replays the walk of `Records.merge` once, independently of `how`,
tagging every emission with its origin; `Records.merge`'s emission for a
given `how` is the tag-filtered projection (proved below), which the
walk's control flow permits because `merge_left` / `merge_right` gate only
emissions, never the pending-left state. -/

inductive MTag where
  | matched
  | invL
  | invR
  | empL
  | empR
  | junk
  deriving DecidableEq, Repr

/-- Tag for an invalid-join-key row, by its `side` value. -/
def tagOfSideInv (r : Record) : MTag :=
  if r.get "side" = LEFTv then .invL else if r.get "side" = RIGHTv then .invR else .junk

/-- Tag for an `empty_records` entry, by its `side` value. -/
def tagOfSideEmp (r : Record) : MTag :=
  if r.get "side" = LEFTv then .empL else if r.get "side" = RIGHTv then .empR else .junk

structure EqTagSt where
  emits : List (MTag × Record)
  empty : List (MTag × Record)
  leftR : Option Record

/-- The walk of `Records.merge` with unconditional, tagged emission. -/
def eqTagStep (jk : String) (st : EqTagSt) (r : Record) : EqTagSt :=
  if r.get "has_valid_join_key" = Value.b false then
    { st with emits := st.emits ++ [(tagOfSideInv r, r)] }
  else
    let joinValue := r.get jk
    if r.get "side" = LEFTv then
      let empty' :=
        match st.leftR with
        | some l =>
          if l.get "found_right_record" = Value.b false then st.empty ++ [(tagOfSideEmp l, l)]
          else st.empty
        | Option.none => st.empty
      { emits := st.emits, empty := empty',
        leftR := some (r.add "found_right_record" (.b false)) }
    else
      match st.leftR with
      | some l =>
        if joinValue = l.get jk ∧ truthy (r.get "has_valid_join_key") = true then
          let l' := l.add "found_right_record" (.b true)
          { emits := st.emits ++ [(.matched, Record.merge r l')],
            empty := st.empty, leftR := some l' }
        else { st with empty := st.empty ++ [(tagOfSideEmp r, r)] }
      | Option.none => { st with empty := st.empty ++ [(tagOfSideEmp r, r)] }

/-- Tagged analogue of the whole emission phase of `Records.merge`. -/
def eqTagged (jk : String) (ws : List Record) : List (MTag × Record) :=
  let st := ws.foldl (eqTagStep jk) ⟨[], [], Option.none⟩
  let empty2 :=
    match st.leftR with
    | some l =>
      if l.get "found_right_record" = Value.b false then st.empty ++ [(tagOfSideEmp l, l)]
      else st.empty
    | Option.none => st.empty
  st.emits ++ empty2

/-- Which tags a given `how` keeps: matched pairs always, left-side leftovers
iff `merge_left`, right-side leftovers iff `merge_right`. -/
def keepTag (ml mr : Bool) : MTag → Bool
  | .matched => true
  | .invL => ml
  | .empL => ml
  | .invR => mr
  | .empR => mr
  | .junk => false

def tagFilterMap (ml mr : Bool) (T : List (MTag × Record)) : List Record :=
  (T.filter (fun t => keepTag ml mr t.1)).map (·.2)

/-- Number of entries with a tag in `tags` whose record satisfies `p`. -/
def cntTag (tags : List MTag) (p : Record → Bool) (T : List (MTag × Record)) : Nat :=
  T.countP (fun t => decide (t.1 ∈ tags) && p t.2)

/-- The multiset-of-rows count used for the outer-variant algebra: how many
rows of `l` are `Record.equals`-equal to `v`. -/
def countEq (v : Record) (l : List Record) : Nat :=
  l.countP (fun r => decide (Record.equals r v))

/-- All scratch columns named by the spec's universal invariant 5. -/
def scratch8 : List String :=
  ["side", "merge_stamp", "has_merge_stamp", "has_valid_join_key", "found_right_record",
   "sub_record", "type", "timestamp"]

/-- No scratch-column name occurs in the declared columns or in any row. -/
def Records.scratchFree (rs : Records) : Prop :=
  (∀ c ∈ scratch8, ¬ c ∈ rs.columns) ∧ (∀ r ∈ rs.data, ∀ c ∈ scratch8, r.hasKey c = false)

instance (rs : Records) : Decidable rs.scratchFree := by
  unfold Records.scratchFree
  infer_instance

/-- Key-set well-formedness: a Python dict has no duplicate keys. -/
def Record.WF (r : Record) : Prop := (r.data.map Prod.fst).Nodup

instance (r : Record) : Decidable r.WF := by
  unfold Record.WF
  infer_instance

/-- Some row of `rows` carries column `c`. -/
def rowsHaveKey (rows : List Record) (c : String) : Prop :=
  ∃ r ∈ rows, r.hasKey c = true

/-- The sweep state of `merge_sequencial_for_addr_track` on the input that
violates the unification requirement: two copies `3→2`-then-`3→1` over three
sinks reading addresses 1, 1 and 2 (sources empty; timestamps make the sweep
process the sinks first, then copy `ct:2`, then copy `ct:1`). -/
def c2state : AddrSt :=
  addrSweep "sk" "cf" "ct" "sf"
    (addrWorkList (recsOf []) "ss"
      (recsOf [[("cf", 3), ("ct", 2), ("cs", 5)], [("cf", 3), ("ct", 1), ("cs", 4)]]) "cs"
      (recsOf [[("sf", 1), ("ks", 10)], [("sf", 1), ("ks", 9)], [("sf", 2), ("ks", 8)]]) "ks")

/-- A left row eligible for pairing in `merge_sequencial`'s first pass. -/
def leftStampRow (r : Record) : Prop :=
  r.get "side" = LEFTv ∧ truthy (r.get "has_merge_stamp") = true

/-- A right row eligible for pairing in `merge_sequencial`'s first pass. -/
def rightStampRow (r : Record) : Prop :=
  r.get "side" = RIGHTv ∧ truthy (r.get "has_merge_stamp") = true

instance (r : Record) : Decidable (leftStampRow r) := by
  unfold leftStampRow; infer_instance

instance (r : Record) : Decidable (rightStampRow r) := by
  unfold rightStampRow; infer_instance

/-- The shapes row `p` of the working list can take during the first pass of
`merge_sequencial`: untouched, `sub_record := None`, or bound to a right row
`q` (possibly after the initial `None`). -/
def SubShape (ws : List Record) (p : Nat) (r : Record) : Prop :=
  r = ws.getD p ⟨[]⟩ ∨
  r = (ws.getD p ⟨[]⟩).add "sub_record" Value.none ∨
  ∃ q, rightStampRow (ws.getD q ⟨[]⟩) ∧ r = (ws.getD p ⟨[]⟩).add "sub_record" (Value.ref q)

/-- Invariant of the first pass of `merge_sequencial` after `n` steps, for a
working list `ws` holding two left rows `i < j` with join value `v` and the
first matching right row at `r0`: row states of `i` and `j` per phase, the
pending map's entry for `v`, which pending entries may point at `i` or `j`,
and which rows can hold a `sub_record` reference to `r0`. -/
def seqInv (ws : List Record) (k : String) (i j r0 : Nat) (v : Value) (n : Nat)
    (st : List Record × List (Value × Nat)) : Prop :=
  st.1.length = ws.length ∧
  (∀ p, SubShape ws p (st.1.getD p ⟨[]⟩)) ∧
  (n ≤ i → st.1.getD i ⟨[]⟩ = ws.getD i ⟨[]⟩) ∧
  (i < n → st.1.getD i ⟨[]⟩ = (ws.getD i ⟨[]⟩).add "sub_record" Value.none) ∧
  (n ≤ j → st.1.getD j ⟨[]⟩ = ws.getD j ⟨[]⟩) ∧
  (j < n → n ≤ r0 → st.1.getD j ⟨[]⟩ = (ws.getD j ⟨[]⟩).add "sub_record" Value.none) ∧
  (r0 < n → st.1.getD j ⟨[]⟩ = (ws.getD j ⟨[]⟩).add "sub_record" (Value.ref r0)) ∧
  (j < n → n ≤ r0 → pendingGet st.2 v = some j) ∧
  (∀ e ∈ st.2, (e.2 = i → e.1 = v ∧ n ≤ j) ∧ (e.2 = j → e.1 = v ∧ n ≤ r0)) ∧
  (∀ p, (st.1.getD p ⟨[]⟩).get "sub_record" = Value.ref r0 → p = j ∧ r0 < n)

/-- Invariant of the second pass of `merge_sequencial` after `n` steps:
provenance of pair and single emissions, membership of the `added` set, and
the fate of the two left rows `i < j` bound as in `seqInv`. -/
def seqInv2 (ws2 : List Record) (i j r0 : Nat) (ml : Bool) (n : Nat)
    (st : List Emit × List Nat) : Prop :=
  (∀ p q, Emit.pair p q ∈ st.1 →
    (ws2.getD p ⟨[]⟩).get "sub_record" = Value.ref q ∧ p < n) ∧
  (∀ p, Emit.single p ∈ st.1 → p < n) ∧
  (∀ p, p ∈ st.2 → p < n ∨ ∃ q, Emit.pair q p ∈ st.1) ∧
  (j < n → Emit.pair j r0 ∈ st.1) ∧
  (i < n → (Emit.single i ∈ st.1 ↔ ml = true))

/-- A three-row sorted working list exercising the pending-map overwrite:
two left rows with join value `7` followed by one matching right row. -/
def c9ws : List Record :=
  [⟨[("side", LEFTv), ("has_merge_stamp", Value.b true),
     ("has_valid_join_key", Value.b true), ("key", Value.i 7)]⟩,
   ⟨[("side", LEFTv), ("has_merge_stamp", Value.b true),
     ("has_valid_join_key", Value.b true), ("key", Value.i 7)]⟩,
   ⟨[("side", RIGHTv), ("has_merge_stamp", Value.b true),
     ("has_valid_join_key", Value.b true), ("key", Value.i 7)]⟩]

/-! ## Basic lemmas about the embedded dictionary operations -/

theorem find?_map_add_self (l : List (String × Value)) (k : String) (v : Value)
    (h : l.any (fun p => p.1 == k) = true) :
    (l.map (fun p => if p.1 == k then (k, v) else p)).find? (fun p => p.1 == k) = some (k, v) := by
  rw [List.find?_map]
  have hpred : ((fun p : String × Value => p.1 == k) ∘
      (fun p => if p.1 == k then (k, v) else p)) = fun p : String × Value => p.1 == k := by
    funext q
    by_cases hq : q.1 = k <;> simp [hq]
  rw [hpred]
  simp only [List.any_eq_true] at h
  obtain ⟨q0, hq0m, hq0⟩ := h
  have : (l.find? (fun p : String × Value => p.1 == k)).isSome = true :=
    List.find?_isSome.mpr ⟨q0, hq0m, hq0⟩
  obtain ⟨q1, hq1⟩ := Option.isSome_iff_exists.mp this
  have hq1k : q1.1 = k := by simpa using List.find?_some hq1
  simp [hq1, hq1k]

theorem find?_map_add_ne (l : List (String × Value)) (k c : String) (v : Value) (hck : c ≠ k) :
    (l.map (fun p => if p.1 == k then (k, v) else p)).find? (fun p => p.1 == c) =
      l.find? (fun p => p.1 == c) := by
  rw [List.find?_map]
  have hpred : ((fun p : String × Value => p.1 == c) ∘
      (fun p => if p.1 == k then (k, v) else p)) = fun p : String × Value => p.1 == c := by
    funext q
    by_cases hq : q.1 = k
    · simp [hq, fun hh : k = c => hck hh.symm]
    · simp [hq]
  rw [hpred]
  cases hfind : l.find? (fun p : String × Value => p.1 == c) with
  | none => rfl
  | some q1 =>
    have hq1c : q1.1 = c := by simpa using List.find?_some hfind
    simp [hq1c, fun hh : c = k => hck hh]


theorem Record.lookup_add (r : Record) (k : String) (v : Value) (c : String) :
    (r.add k v).lookup c = if c = k then some v else r.lookup c := by
  by_cases hk : r.hasKey k = true
  · unfold Record.add
    rw [if_pos hk]
    by_cases hc : c = k
    · subst hc
      unfold Record.lookup
      rw [find?_map_add_self _ _ _ hk]
      simp
    · unfold Record.lookup
      rw [find?_map_add_ne _ _ _ _ hc]
      simp [hc]
  · unfold Record.add
    rw [if_neg hk]
    unfold Record.lookup
    rw [List.find?_append]
    by_cases hc : c = k
    · subst hc
      have hnone : r.data.find? (fun p => p.1 == c) = Option.none := by
        rw [List.find?_eq_none]
        intro x hx hpx
        exact hk (List.any_eq_true.mpr ⟨x, hx, hpx⟩)
      simp [hnone, List.find?]
    · have hnone2 : ([(k, v)].find? (fun p => p.1 == c)) = Option.none := by
        rw [List.find?_eq_none]
        intro x hx
        simp only [List.mem_singleton] at hx
        subst hx
        simp only [beq_iff_eq]
        exact fun hh => hc hh.symm
      have : ¬ k = c := fun hh => hc hh.symm
      simp [hnone2, Record.lookup, hc, this]

theorem Record.hasKey_eq_isSome (r : Record) (c : String) :
    r.hasKey c = (r.lookup c).isSome := by
  unfold Record.hasKey Record.lookup
  cases hfind : r.data.find? (fun p => p.1 == c) with
  | none =>
    rw [List.find?_eq_none] at hfind
    simp only [Option.map_none', Option.isSome_none]
    rw [List.any_eq_false]
    intro x hx
    exact hfind x hx
  | some q =>
    have : (r.data.find? (fun p => p.1 == c)).isSome = true := by rw [hfind]; rfl
    rw [List.find?_isSome] at this
    obtain ⟨x, hx, hpx⟩ := this
    simp only [Option.map_some', Option.isSome_some]
    exact List.any_eq_true.mpr ⟨x, hx, hpx⟩

theorem Record.hasKey_add (r : Record) (k : String) (v : Value) (c : String) :
    (r.add k v).hasKey c = (r.hasKey c || c == k) := by
  rw [Record.hasKey_eq_isSome, Record.lookup_add, Record.hasKey_eq_isSome]
  by_cases hc : c = k <;> simp [hc]

theorem find?_filter_ne (l : List (String × Value)) (k c : String) :
    (l.filter (fun p => ¬ p.1 == k)).find? (fun p => p.1 == c) =
      if c = k then Option.none else l.find? (fun p => p.1 == c) := by
  induction l with
  | nil => by_cases hc : c = k <;> simp [hc]
  | cons p t ih =>
    by_cases hp : p.1 = k
    · have hfp : (decide ¬(p.1 == k) = true) = false := by simp [hp]
      simp only [List.filter_cons, hfp, Bool.false_eq_true, if_false]
      rw [ih]
      by_cases hc : c = k
      · simp [hc]
      · have hkc : ¬ k = c := fun hh => hc hh.symm
        have hpc : (p.1 == c) = false := by simp [hp, hkc]
        simp [hc, List.find?_cons, hpc]
    · have hfp : (decide ¬(p.1 == k) = true) = true := by simp [hp]
      simp only [List.filter_cons, hfp, if_true]
      by_cases hpc : p.1 = c
      · have hc : ¬ c = k := fun hh => hp (hpc ▸ hh)
        simp [List.find?_cons, hpc, hc]
      · have hfc : (p.1 == c) = false := by simp [hpc]
        simp only [List.find?_cons, hfc, Bool.false_eq_true, if_false]
        exact ih

theorem Record.lookup_eraseK (r : Record) (k c : String) :
    (r.eraseK k).lookup c = if c = k then Option.none else r.lookup c := by
  unfold Record.eraseK Record.lookup
  rw [find?_filter_ne]
  by_cases hc : c = k <;> simp [hc]

theorem Record.lookup_dropCols (r : Record) (ks : List String) (c : String) :
    (r.dropCols ks).lookup c = if c ∈ ks then Option.none else r.lookup c := by
  induction ks generalizing r with
  | nil => simp [Record.dropCols]
  | cons k t ih =>
    show ((r.eraseK k).dropCols t).lookup c = _
    rw [ih]
    by_cases hct : c ∈ t
    · simp [hct, List.mem_cons]
    · rw [Record.lookup_eraseK]
      by_cases hck : c = k
      · simp [hck, hct]
      · simp [hck, hct]

theorem Record.hasKey_dropCols (r : Record) (ks : List String) (c : String) :
    (r.dropCols ks).hasKey c = (decide (¬ c ∈ ks) && r.hasKey c) := by
  rw [Record.hasKey_eq_isSome, Record.lookup_dropCols, Record.hasKey_eq_isSome]
  by_cases h : c ∈ ks <;> simp [h]

theorem Record.lookup_foldl_add_not_mem (a : Record) (l : List (String × Value)) (c : String)
    (h : ∀ p ∈ l, ¬ p.1 = c) :
    (l.foldl (fun acc p => acc.add p.1 p.2) a).lookup c = a.lookup c := by
  induction l generalizing a with
  | nil => rfl
  | cons p t ih =>
    show (t.foldl (fun acc p => acc.add p.1 p.2) (a.add p.1 p.2)).lookup c = _
    rw [ih _ (fun q hq => h q (List.mem_cons_of_mem _ hq)), Record.lookup_add]
    have : ¬ c = p.1 := fun hh => h p (List.mem_cons_self _ _) hh.symm
    simp [this]

theorem Record.lookup_merge_of_mem (a b : Record) (c : String)
    (hnd : (b.data.map Prod.fst).Nodup) (h : b.hasKey c = true) :
    (Record.merge a b).lookup c = b.lookup c := by
  unfold Record.merge
  obtain ⟨l⟩ := b
  induction l generalizing a with
  | nil => simp [Record.hasKey] at h
  | cons p t ih =>
    show (t.foldl (fun acc p => acc.add p.1 p.2) (a.add p.1 p.2)).lookup c = _
    by_cases hpc : p.1 = c
    · have hnotin : ∀ q ∈ t, ¬ q.1 = c := by
        intro q hq hqc
        simp only [List.map_cons, List.nodup_cons] at hnd
        exact hnd.1 (hpc ▸ hqc ▸ (List.mem_map_of_mem Prod.fst hq))
      rw [Record.lookup_foldl_add_not_mem _ _ _ hnotin, Record.lookup_add]
      have hfind : Record.lookup ⟨p :: t⟩ c = some p.2 := by
        unfold Record.lookup
        have : (p.1 == c) = true := by simp [hpc]
        simp [List.find?_cons, this]
      rw [if_pos hpc.symm, hfind]
    · have hht : Record.hasKey ⟨t⟩ c = true := by
        unfold Record.hasKey at h ⊢
        simp only [List.any_cons, Bool.or_eq_true, beq_iff_eq] at h
        rcases h with h | h
        · exact absurd h hpc
        · exact h
      have hndt : (t.map Prod.fst).Nodup := by
        simp only [List.map_cons, List.nodup_cons] at hnd
        exact hnd.2
      rw [ih (a.add p.1 p.2) hndt hht]
      unfold Record.lookup
      have : (p.1 == c) = false := by simp [hpc]
      simp [List.find?_cons, this]

theorem Record.lookup_merge_of_not_mem (a b : Record) (c : String) (h : b.hasKey c = false) :
    (Record.merge a b).lookup c = a.lookup c := by
  unfold Record.merge
  apply Record.lookup_foldl_add_not_mem
  intro p hp hpc
  unfold Record.hasKey at h
  rw [List.any_eq_false] at h
  exact h p hp (by simp [hpc])

theorem Record.hasKey_merge (a b : Record) (c : String) :
    (Record.merge a b).hasKey c = (a.hasKey c || b.hasKey c) := by
  unfold Record.merge
  obtain ⟨l⟩ := b
  induction l generalizing a with
  | nil => simp [Record.hasKey]
  | cons p t ih =>
    show (t.foldl (fun acc p => acc.add p.1 p.2) (a.add p.1 p.2)).hasKey c = _
    rw [ih]
    rw [Record.hasKey_add]
    show _ = (a.hasKey c || Record.hasKey ⟨p :: t⟩ c)
    unfold Record.hasKey
    simp only [List.any_cons]
    by_cases hpc : c = p.1
    · simp [hpc]
    · have h1 : (c == p.1) = false := by simp [hpc]
      have hpc2 : ¬ p.1 = c := fun hh => hpc hh.symm
      have h2 : (p.1 == c) = false := by simp [hpc2]
      simp only [h1, h2, Bool.false_or, Bool.or_false]

theorem Record.mem_columns_iff (r : Record) (c : String) :
    c ∈ r.columns ↔ r.hasKey c = true := by
  unfold Record.columns Record.hasKey
  have haux : ∀ (l : List (String × Value)) (s : Finset String),
      c ∈ l.foldl (fun s p => insert p.1 s) s ↔ c ∈ s ∨ l.any (fun p => p.1 == c) = true := by
    intro l
    induction l with
    | nil => intro s; simp
    | cons p t ih =>
      intro s
      show c ∈ t.foldl (fun s p => insert p.1 s) (insert p.1 s) ↔ _
      rw [ih]
      simp only [Finset.mem_insert, List.any_cons, Bool.or_eq_true, beq_iff_eq]
      constructor
      · rintro (⟨h | h⟩ | h)
        · exact Or.inr (Or.inl h.symm)
        · exact Or.inl h
        · exact Or.inr (Or.inr h)
      · rintro (h | h | h)
        · exact Or.inl (Or.inr h)
        · exact Or.inl (Or.inl h.symm)
        · exact Or.inr h
  rw [haux]
  simp

theorem mem_unionCols_iff (rows : List Record) (c : String) :
    c ∈ unionCols rows ↔ ∃ r ∈ rows, r.hasKey c = true := by
  unfold unionCols
  have haux : ∀ (l : List Record) (s : Finset String),
      c ∈ l.foldl (fun s r => s ∪ r.columns) s ↔ c ∈ s ∨ ∃ r ∈ l, c ∈ r.columns := by
    intro l
    induction l with
    | nil => intro s; simp
    | cons r t ih =>
      intro s
      show c ∈ t.foldl (fun s r => s ∪ r.columns) (s ∪ r.columns) ↔ _
      rw [ih]
      simp only [Finset.mem_union, List.mem_cons]
      constructor
      · rintro (⟨h | h⟩ | ⟨r', hr', h⟩)
        · exact Or.inl h
        · exact Or.inr ⟨r, Or.inl rfl, h⟩
        · exact Or.inr ⟨r', Or.inr hr', h⟩
      · rintro (h | ⟨r', hr' | hr', h⟩)
        · exact Or.inl (Or.inl h)
        · exact Or.inl (Or.inr (hr' ▸ h))
        · exact Or.inr ⟨r', hr', h⟩
  rw [haux]
  simp only [Finset.not_mem_empty, false_or]
  constructor
  · rintro ⟨r, hr, h⟩
    exact ⟨r, hr, (Record.mem_columns_iff r c).mp h⟩
  · rintro ⟨r, hr, h⟩
    exact ⟨r, hr, (Record.mem_columns_iff r c).mpr h⟩

theorem Record.ext' (a b : Record) (h : a.data = b.data) : a = b := by
  cases a
  cases b
  simpa using h

theorem Record.dropCols_data (r : Record) (ks : List String) :
    (r.dropCols ks).data = r.data.filter (fun p => decide (¬ p.1 ∈ ks)) := by
  induction ks generalizing r with
  | nil => simp [Record.dropCols]
  | cons k t ih =>
    show ((r.eraseK k).dropCols t).data = _
    rw [ih]
    unfold Record.eraseK
    rw [List.filter_filter]
    apply List.filter_congr
    intro p _
    by_cases h1 : p.1 = k
    · simp [h1]
    · by_cases h2 : p.1 ∈ t <;> simp [h1, h2]

theorem Record.dropCols_eq_self (r : Record) (ks : List String)
    (hr : ∀ p ∈ r.data, ¬ p.1 ∈ ks) : r.dropCols ks = r := by
  have : (r.dropCols ks).data = r.data := by
    rw [Record.dropCols_data]
    apply List.filter_eq_self.mpr
    intro p hp
    simp [hr p hp]
  exact Record.ext' _ _ this

theorem Record.dropCols_add_self (r : Record) (ks : List String) (k : String) (v : Value)
    (hk : k ∈ ks) (hr : ∀ p ∈ r.data, ¬ p.1 ∈ ks) : (r.add k v).dropCols ks = r := by
  have hnk : r.hasKey k = false := by
    unfold Record.hasKey
    rw [List.any_eq_false]
    intro p hp
    simp only [beq_iff_eq]
    intro hh
    exact hr p hp (hh ▸ hk)
  have hadd : r.add k v = ⟨r.data ++ [(k, v)]⟩ := by
    unfold Record.add
    rw [if_neg (by simp [hnk])]
  rw [hadd]
  have : (Record.dropCols ⟨r.data ++ [(k, v)]⟩ ks).data = r.data := by
    rw [Record.dropCols_data]
    show (r.data ++ [(k, v)]).filter _ = _
    rw [List.filter_append]
    have h1 : r.data.filter (fun p => decide (¬ p.1 ∈ ks)) = r.data := by
      apply List.filter_eq_self.mpr
      intro p hp
      simp [hr p hp]
    have h2 : ([((k : String), v)].filter (fun p => decide (¬ p.1 ∈ ks))) = [] := by
      simp [hk]
    rw [h1, h2, List.append_nil]
  exact Record.ext' _ _ this

theorem mem_insSorted (key : Record → Int × Int) (x : Record) (l : List Record) (a : Record) :
    a ∈ insSorted key x l ↔ a = x ∨ a ∈ l := by
  induction l with
  | nil => simp [insSorted]
  | cons y ys ih =>
    unfold insSorted
    by_cases h : pairLtB (key y) (key x) = true
    · rw [if_pos h]
      simp only [List.mem_cons, ih]
      tauto
    · rw [if_neg h]
      simp only [List.mem_cons]

theorem mem_stableSortBy (key : Record → Int × Int) (l : List Record) (a : Record) :
    a ∈ stableSortBy key l ↔ a ∈ l := by
  unfold stableSortBy
  induction l with
  | nil => simp
  | cons x t ih =>
    show a ∈ insSorted key x (t.foldr (insSorted key) []) ↔ _
    rw [mem_insSorted, ih]
    simp

/-- Invariant preservation through `List.foldl`. -/
theorem foldl_inv {α β : Type} (P : β → Prop) (f : β → α → β) (l : List α) (init : β)
    (h0 : P init) (hstep : ∀ st x, x ∈ l → P st → P (f st x)) : P (l.foldl f init) := by
  induction l generalizing init with
  | nil => exact h0
  | cons a t ih =>
    exact ih (f init a) (hstep init a (List.mem_cons_self _ _) h0)
      (fun st x hx hp => hstep st x (List.mem_cons_of_mem _ hx) hp)

theorem listGetD_set_self {α : Type} (l : List α) (i : Nat) (a d : α) (h : i < l.length) :
    (l.set i a).getD i d = a := by
  rw [List.getD, List.get?_eq_getElem?, List.getElem?_set_self']
  simp [h]

theorem listGetD_set_ne {α : Type} (l : List α) (i j : Nat) (a d : α) (h : ¬ j = i) :
    (l.set i a).getD j d = l.getD j d := by
  rw [List.getD, List.getD, List.get?_eq_getElem?, List.get?_eq_getElem?,
    List.getElem?_set_ne (by omega)]

/-- C3: `Records.merge` on left `[{k:1,lo:1},{k:2,lo:2}]` and right
`[{k:2,ro:3},{k:1,ro:4}]` with join key `k` and `how='inner'` returns exactly
`[{k:1,lo:1,ro:4},{k:2,lo:2,ro:3}]` in that order. -/
theorem C3_equality_inner_scenario :
    (Records.mergeOp (recsOf [[("k", 1), ("lo", 1)], [("k", 2), ("lo", 2)]])
        (recsOf [[("k", 2), ("ro", 3)], [("k", 1), ("ro", 4)]]) "k" "inner").1.equals
      (recsOf [[("k", 1), ("lo", 1), ("ro", 4)], [("k", 2), ("lo", 2), ("ro", 3)]]) := by
  decide

/-- C4: `merge_sequencial` pairs each left row with the nearest-later matching
right row, each right row claimed at most once: on left `[{jk:1,ls:0},{jk:2,ls:3}]`
and right `[{jk:2,rs:5},{jk:1,rs:6}]` with stamp keys `ls`,`rs`, join key `jk`
and `how='inner'` it returns exactly `[{jk:1,ls:0,rs:6},{jk:2,ls:3,rs:5}]`
in that order. -/
theorem C4_sequencial_scenario :
    (Records.mergeSequencialOp (recsOf [[("jk", 1), ("ls", 0)], [("jk", 2), ("ls", 3)]])
        (recsOf [[("jk", 2), ("rs", 5)], [("jk", 1), ("rs", 6)]]) "ls" "rs" (some "jk")
        "inner").1.equals
      (recsOf [[("jk", 1), ("ls", 0), ("rs", 6)], [("jk", 2), ("ls", 3), ("rs", 5)]]) := by
  decide

/-- C5: `merge_sequencial_for_addr_track` on sources `[{sk:1,ss:0}]`, copies
`[{cf:1,ct:11,cs:1}]`, sinks `[{sf:11,ks:2},{sf:1,ks:3}]` returns exactly
`[{ss:0,ks:3,sk:1},{ss:0,ks:2,sk:1}]` in that (reverse-time emission) order,
and the set-valued `sink_from_key` scratch column `sf` appears in no output
row and not in the declared columns. -/
theorem C5_addr_track_scenario :
    (Records.mergeSequencialForAddrTrack (recsOf [[("sk", 1), ("ss", 0)]]) "ss" "sk"
        (recsOf [[("cf", 1), ("ct", 11), ("cs", 1)]]) "cs" "cf" "ct"
        (recsOf [[("sf", 11), ("ks", 2)], [("sf", 1), ("ks", 3)]]) "ks" "sf").equals
      (recsOf [[("ss", 0), ("ks", 3), ("sk", 1)], [("ss", 0), ("ks", 2), ("sk", 1)]]) ∧
    (¬ "sf" ∈ (Records.mergeSequencialForAddrTrack (recsOf [[("sk", 1), ("ss", 0)]]) "ss" "sk"
        (recsOf [[("cf", 1), ("ct", 11), ("cs", 1)]]) "cs" "cf" "ct"
        (recsOf [[("sf", 11), ("ks", 2)], [("sf", 1), ("ks", 3)]]) "ks" "sf").columns) ∧
    (∀ r ∈ (Records.mergeSequencialForAddrTrack (recsOf [[("sk", 1), ("ss", 0)]]) "ss" "sk"
        (recsOf [[("cf", 1), ("ct", 11), ("cs", 1)]]) "cs" "cf" "ct"
        (recsOf [[("sf", 11), ("ks", 2)], [("sf", 1), ("ks", 3)]]) "ks" "sf").data,
      r.hasKey "sf" = false) := by
  refine ⟨by decide, by decide, by decide⟩

/-- C2 (code bug): after the reverse-chronological sweep has processed the
last COPY of `c2state`'s input, processing records 0 and 1 hold identifier
sets `{1,2,3}` and `{1,3}`: they share elements but are not one unified set,
because `merge_processing_record_keys` re-points the extended record at a
fresh `merged_set` on every union, leaving the partner of an *earlier* union
with a stale, smaller set.  This violates the spec's unification
requirement. -/
theorem C2_unification_violated :
    interNonempty (cellOf c2state.store "sf" (c2state.processing.getD 0 ⟨[]⟩))
        (cellOf c2state.store "sf" (c2state.processing.getD 1 ⟨[]⟩)) = true ∧
    setEqL (cellOf c2state.store "sf" (c2state.processing.getD 0 ⟨[]⟩))
        (cellOf c2state.store "sf" (c2state.processing.getD 1 ⟨[]⟩)) = false := by
  refine ⟨by decide, by decide⟩

/-- C1 counterexample: on left `[{k:1,a:10}]` and right `[{k:1,a:20}]` with
join key `k`, the matched pair is built as `deepcopy(right).merge(left)`
(line 891-892), so the result row carries the *left* value `a=10`, not the
right value `a=20` the claim predicts. -/
theorem C1_counterexample :
    (Records.mergeOp (recsOf [[("k", 1), ("a", 10)]]) (recsOf [[("k", 1), ("a", 20)]])
        "k" "inner").1.equals (recsOf [[("k", 1), ("a", 10)]]) ∧
    ¬ (Records.mergeOp (recsOf [[("k", 1), ("a", 10)]]) (recsOf [[("k", 1), ("a", 20)]])
        "k" "inner").1.equals (recsOf [[("k", 1), ("a", 20)]]) := by
  refine ⟨by decide, by decide⟩

/-- C1 (amended): in `Records.merge`, a matched pair is emitted as
`Record.merge right left` (`deepcopy(record)` followed by
`merged_record.merge(left_record_, inplace=True)`), and `dict.update` lets
the *left* row's values overwrite the right row's on every shared column:
for any column the left row carries, the merged row carries the left value. -/
theorem C1_amended_left_overwrites (rrec lrec : Record) (c : String)
    (hwf : lrec.WF) (hc : lrec.hasKey c = true) :
    (Record.merge rrec lrec).lookup c = lrec.lookup c :=
  Record.lookup_merge_of_mem rrec lrec c hwf hc

theorem C1_amended_witness :
    (recOf [("k", 1), ("a", 10)]).WF ∧ (recOf [("k", 1), ("a", 10)]).hasKey "a" = true ∧
    (Record.merge (recOf [("k", 1), ("a", 20)]) (recOf [("k", 1), ("a", 10)])).lookup "a"
      = (recOf [("k", 1), ("a", 10)]).lookup "a" :=
  ⟨by decide, by decide, C1_amended_left_overwrites _ _ _ (by decide) (by decide)⟩

/-- C8: `Records.merge` and `Records.merge_sequencial` fail their assertion
iff `how` is not one of inner/left/right/outer, and on that failure both
inputs are returned untouched (the assert precedes any annotation); the free
functions additionally fail their assertion when the argument `Records`
kinds differ. -/
theorem C8_assertions (L R SRC CPY SNK : Records) (jk ls rs : String) (jko : Option String)
    (how : String) (lk rk ks kc kk : RecordsKind)
    (sS sK cS cF cT kS sfk : String) :
    ((Records.mergeChecked L R jk how).1 = Except.error () ↔ ¬ how ∈ hows) ∧
    (¬ how ∈ hows → Records.mergeChecked L R jk how = (Except.error (), L, R)) ∧
    ((Records.mergeSequencialChecked L R ls rs jko how).1 = Except.error () ↔ ¬ how ∈ hows) ∧
    (¬ how ∈ hows → Records.mergeSequencialChecked L R ls rs jko how = (Except.error (), L, R)) ∧
    ((mergeFree lk rk L R jk how).1 = Except.error () ↔ (¬ lk = rk ∨ ¬ how ∈ hows)) ∧
    ((mergeSequencialFree lk rk L R ls rs jko how).1 = Except.error () ↔
      (¬ lk = rk ∨ ¬ how ∈ hows)) ∧
    (mergeSequencialForAddrTrackFree ks kc kk SRC sS sK CPY cS cF cT SNK kS sfk =
        Except.error () ↔ ¬ (ks = kc ∧ kc = kk)) := by
  by_cases hhow : how ∈ hows <;> by_cases hk : lk = rk <;> by_cases hk3 : ks = kc ∧ kc = kk <;>
    simp [Records.mergeChecked, Records.mergeSequencialChecked, mergeFree, mergeSequencialFree,
      mergeSequencialForAddrTrackFree, hhow, hk, hk3]

theorem C8_witness :
    ¬ "union" ∈ hows ∧
    Records.mergeChecked (recsOf [[("k", 1)]]) (recsOf [[("k", 2)]]) "k" "union" =
      (Except.error (), recsOf [[("k", 1)]], recsOf [[("k", 2)]]) :=
  ⟨by decide,
    (C8_assertions (recsOf [[("k", 1)]]) (recsOf [[("k", 2)]]) (recsOf []) (recsOf [])
        (recsOf []) "k" "ls" "rs" Option.none "union" RecordsKind.python RecordsKind.python
        RecordsKind.python RecordsKind.python RecordsKind.python
        "a" "b" "c" "d" "e" "f" "g").2.1 (by decide)⟩

/-- C10: the non-inplace `sort`, `concat` and `drop_columns` return `Records`
whose declared column set is recomputed by the constructor as exactly the
union of the result rows' present columns (so a declared-but-absent column of
the receiver is lost), while the inplace variants keep the receiver's
declared set (concat unions the other side's declared set, drop removes
exactly the named columns). -/
theorem C10_column_recompute (rs other : Records) (k : String) (sk : Option String)
    (asc : Bool) (ks : List String) :
    ((rs.sort k sk asc).columns = unionCols (rs.sort k sk asc).data ∧
      ∀ c, c ∈ (rs.sort k sk asc).columns ↔ rowsHaveKey (rs.sort k sk asc).data c) ∧
    ((rs.concat other).columns = unionCols (rs.concat other).data ∧
      ∀ c, c ∈ (rs.concat other).columns ↔ rowsHaveKey (rs.concat other).data c) ∧
    ((rs.drop_columns ks).columns = unionCols (rs.drop_columns ks).data ∧
      ∀ c, c ∈ (rs.drop_columns ks).columns ↔ rowsHaveKey (rs.drop_columns ks).data c) ∧
    ((rs.sortIP k sk asc).columns = rs.columns) ∧
    ((rs.concatIP other).columns = rs.columns ∪ other.columns) ∧
    (∀ c ∈ rs.columns, ¬ c ∈ ks → c ∈ (rs.dropColsIP ks).columns) := by
  refine ⟨⟨rfl, fun c => ?_⟩, ⟨rfl, fun c => ?_⟩, ⟨rfl, fun c => ?_⟩, rfl, rfl, ?_⟩
  · exact mem_unionCols_iff _ c
  · exact mem_unionCols_iff _ c
  · exact mem_unionCols_iff _ c
  · intro c hc hks
    show c ∈ rs.columns \ ks.toFinset
    rw [Finset.mem_sdiff, List.mem_toFinset]
    exact ⟨hc, hks⟩

theorem C10_witness :
    "a" ∈ (recsOf [[("a", 1)]]).columns ∧ ¬ "a" ∈ ["b"] ∧
    "a" ∈ ((recsOf [[("a", 1)]]).dropColsIP ["b"]).columns :=
  ⟨by decide, by decide,
    (C10_column_recompute (recsOf [[("a", 1)]]) (recsOf []) "a" Option.none true
        ["b"]).2.2.2.2.2 "a" (by decide) (by decide)⟩

theorem tagFilterMap_append_one (ml mr : Bool) (T : List (MTag × Record)) (x : MTag × Record) :
    tagFilterMap ml mr (T ++ [x]) =
      tagFilterMap ml mr T ++ (if keepTag ml mr x.1 = true then [x.2] else []) := by
  unfold tagFilterMap
  rw [List.filter_append, List.map_append]
  by_cases h : keepTag ml mr x.1 = true <;> simp [h]

theorem eqStep_rel (jk : String) (ml mr : Bool) (r : Record) (st : EqWalkSt) (ts : EqTagSt)
    (h1 : st.merged.data = tagFilterMap ml mr ts.emits)
    (h2 : st.empty = ts.empty.map (·.2))
    (h3 : ∀ te ∈ ts.empty, te.1 = tagOfSideEmp te.2)
    (h4 : st.leftR = ts.leftR) :
    (eqMergeStep jk ml mr st r).merged.data = tagFilterMap ml mr (eqTagStep jk ts r).emits ∧
    (eqMergeStep jk ml mr st r).empty = ((eqTagStep jk ts r).empty).map (·.2) ∧
    (∀ te ∈ (eqTagStep jk ts r).empty, te.1 = tagOfSideEmp te.2) ∧
    (eqMergeStep jk ml mr st r).leftR = (eqTagStep jk ts r).leftR := by
  unfold eqMergeStep eqTagStep
  by_cases hv : r.get "has_valid_join_key" = Value.b false
  · rw [if_pos hv, if_pos hv]
    by_cases hL : r.get "side" = LEFTv
    · have htag : tagOfSideInv r = MTag.invL := by unfold tagOfSideInv; rw [if_pos hL]
      cases ml with
      | true =>
        rw [if_pos ⟨hL, rfl⟩]
        refine ⟨?_, h2, h3, h4⟩
        show (st.merged.append r).data = _
        rw [tagFilterMap_append_one]
        simp [Records.append, htag, keepTag, h1]
      | false =>
        rw [if_neg (by rintro ⟨-, hh⟩; exact Bool.false_ne_true hh)]
        have hR : ¬ r.get "side" = RIGHTv := by
          rw [hL]
          intro hh
          exact absurd (hh ▸ rfl : LEFTv = RIGHTv) (by decide)
        rw [if_neg (by rintro ⟨hh, -⟩; exact hR hh)]
        refine ⟨?_, h2, h3, h4⟩
        rw [tagFilterMap_append_one]
        simp [htag, keepTag, h1]
    · by_cases hR : r.get "side" = RIGHTv
      · have htag : tagOfSideInv r = MTag.invR := by
          unfold tagOfSideInv
          rw [if_neg hL, if_pos hR]
        rw [if_neg (by rintro ⟨hh, -⟩; exact hL hh)]
        cases mr with
        | true =>
          rw [if_pos ⟨hR, rfl⟩]
          refine ⟨?_, h2, h3, h4⟩
          show (st.merged.append r).data = _
          rw [tagFilterMap_append_one]
          simp [Records.append, htag, keepTag, h1]
        | false =>
          rw [if_neg (by rintro ⟨-, hh⟩; exact Bool.false_ne_true hh)]
          refine ⟨?_, h2, h3, h4⟩
          rw [tagFilterMap_append_one]
          simp [htag, keepTag, h1]
      · have htag : tagOfSideInv r = MTag.junk := by
          unfold tagOfSideInv
          rw [if_neg hL, if_neg hR]
        rw [if_neg (by rintro ⟨hh, -⟩; exact hL hh), if_neg (by rintro ⟨hh, -⟩; exact hR hh)]
        refine ⟨?_, h2, h3, h4⟩
        rw [tagFilterMap_append_one]
        simp [htag, keepTag, h1]
  · rw [if_neg hv, if_neg hv]
    by_cases hL : r.get "side" = LEFTv
    · rw [if_pos hL, if_pos hL]
      rw [h4]
      cases ts.leftR with
      | none => exact ⟨h1, h2, h3, rfl⟩
      | some l =>
        dsimp only
        by_cases hf : l.get "found_right_record" = Value.b false
        · rw [if_pos hf, if_pos hf]
          refine ⟨h1, ?_, ?_, rfl⟩
          · simp [h2]
          · intro te hte
            rcases List.mem_append.mp hte with h | h
            · exact h3 te h
            · simp only [List.mem_singleton] at h
              rw [h]
        · rw [if_neg hf, if_neg hf]
          exact ⟨h1, h2, h3, rfl⟩
    · rw [if_neg hL, if_neg hL]
      rw [h4]
      cases ts.leftR with
      | none =>
        dsimp only
        refine ⟨h1, ?_, ?_, rfl⟩
        · simp [h2]
        · intro te hte
          rcases List.mem_append.mp hte with h | h
          · exact h3 te h
          · simp only [List.mem_singleton] at h
            rw [h]
      | some l =>
        dsimp only
        by_cases hm : r.get jk = l.get jk ∧ truthy (r.get "has_valid_join_key") = true
        · rw [if_pos hm, if_pos hm]
          refine ⟨?_, h2, h3, rfl⟩
          show (st.merged.append _).data = _
          rw [tagFilterMap_append_one]
          simp [Records.append, keepTag, h1]
        · rw [if_neg hm, if_neg hm]
          refine ⟨h1, ?_, ?_, rfl⟩
          · simp [h2]
          · intro te hte
            rcases List.mem_append.mp hte with h | h
            · exact h3 te h
            · simp only [List.mem_singleton] at h
              rw [h]

theorem tagFilterMap_append (ml mr : Bool) (T U : List (MTag × Record)) :
    tagFilterMap ml mr (T ++ U) = tagFilterMap ml mr T ++ tagFilterMap ml mr U := by
  unfold tagFilterMap
  rw [List.filter_append, List.map_append]

theorem tagged_reconstruct (T : List (MTag × Record))
    (h : ∀ te ∈ T, te.1 = tagOfSideEmp te.2) :
    (T.map (·.2)).map (fun e => (tagOfSideEmp e, e)) = T := by
  induction T with
  | nil => rfl
  | cons te t ih =>
    have hte := h te (List.mem_cons_self _ _)
    simp only [List.map_cons]
    rw [ih (fun x hx => h x (List.mem_cons_of_mem _ hx))]
    rw [← hte]

theorem flushFold_data (ml mr : Bool) (m : Records) (l : List Record) :
    (l.foldl (fun m e =>
        if e.get "side" = LEFTv ∧ ml = true then m.append e
        else if e.get "side" = RIGHTv ∧ mr = true then m.append e
        else m) m).data
      = m.data ++ tagFilterMap ml mr (l.map (fun e => (tagOfSideEmp e, e))) := by
  induction l generalizing m with
  | nil => simp [tagFilterMap]
  | cons e t ih =>
    rw [List.foldl_cons, ih]
    simp only [List.map_cons]
    have hcons : tagFilterMap ml mr ((tagOfSideEmp e, e) :: t.map (fun e => (tagOfSideEmp e, e)))
        = (if keepTag ml mr (tagOfSideEmp e) = true then [e] else [])
          ++ tagFilterMap ml mr (t.map (fun e => (tagOfSideEmp e, e))) := by
      unfold tagFilterMap
      by_cases h : keepTag ml mr (tagOfSideEmp e) = true <;> simp [h, List.filter_cons]
    rw [hcons]
    by_cases hL : e.get "side" = LEFTv
    · have htag : tagOfSideEmp e = MTag.empL := by unfold tagOfSideEmp; rw [if_pos hL]
      cases ml with
      | true =>
        rw [if_pos ⟨hL, rfl⟩]
        simp [Records.append, htag, keepTag]
      | false =>
        rw [if_neg (by rintro ⟨-, hh⟩; exact Bool.false_ne_true hh)]
        have hR : ¬ e.get "side" = RIGHTv := by
          rw [hL]
          intro hh
          exact absurd (hh ▸ rfl : LEFTv = RIGHTv) (by decide)
        rw [if_neg (by rintro ⟨hh, -⟩; exact hR hh)]
        simp [htag, keepTag]
    · by_cases hR : e.get "side" = RIGHTv
      · have htag : tagOfSideEmp e = MTag.empR := by
          unfold tagOfSideEmp
          rw [if_neg hL, if_pos hR]
        rw [if_neg (by rintro ⟨hh, -⟩; exact hL hh)]
        cases mr with
        | true =>
          rw [if_pos ⟨hR, rfl⟩]
          simp [Records.append, htag, keepTag]
        | false =>
          rw [if_neg (by rintro ⟨-, hh⟩; exact Bool.false_ne_true hh)]
          simp [htag, keepTag]
      · have htag : tagOfSideEmp e = MTag.junk := by
          unfold tagOfSideEmp
          rw [if_neg hL, if_neg hR]
        rw [if_neg (by rintro ⟨hh, -⟩; exact hL hh), if_neg (by rintro ⟨hh, -⟩; exact hR hh)]
        simp [htag, keepTag]

theorem eqWalkData_eq (jk : String) (ml mr : Bool) (ws : List Record) :
    (eqFlushEmpty ml mr (ws.foldl (eqMergeStep jk ml mr) ⟨Records.init [], [], Option.none⟩)).data
      = tagFilterMap ml mr (eqTagged jk ws) := by
  have main : ∀ (ws : List Record) (st : EqWalkSt) (ts : EqTagSt),
      st.merged.data = tagFilterMap ml mr ts.emits →
      st.empty = ts.empty.map (·.2) →
      (∀ te ∈ ts.empty, te.1 = tagOfSideEmp te.2) →
      st.leftR = ts.leftR →
      ((ws.foldl (eqMergeStep jk ml mr) st).merged.data
          = tagFilterMap ml mr ((ws.foldl (eqTagStep jk) ts).emits) ∧
        (ws.foldl (eqMergeStep jk ml mr) st).empty
          = ((ws.foldl (eqTagStep jk) ts).empty).map (·.2) ∧
        (∀ te ∈ (ws.foldl (eqTagStep jk) ts).empty, te.1 = tagOfSideEmp te.2) ∧
        (ws.foldl (eqMergeStep jk ml mr) st).leftR = (ws.foldl (eqTagStep jk) ts).leftR) := by
    intro ws
    induction ws with
    | nil => intro st ts h1 h2 h3 h4; exact ⟨h1, h2, h3, h4⟩
    | cons r rest ih =>
      intro st ts h1 h2 h3 h4
      obtain ⟨g1, g2, g3, g4⟩ := eqStep_rel jk ml mr r st ts h1 h2 h3 h4
      exact ih _ _ g1 g2 g3 g4
  obtain ⟨g1, g2, g3, g4⟩ := main ws ⟨Records.init [], [], Option.none⟩ ⟨[], [], Option.none⟩
    rfl rfl (by intro te h; cases h) rfl
  unfold eqFlushEmpty eqTagged
  dsimp only
  rw [g4]
  cases hlr : (ws.foldl (eqTagStep jk) ⟨[], [], Option.none⟩).leftR with
  | none =>
    dsimp only
    rw [flushFold_data, tagFilterMap_append, g1, g2, tagged_reconstruct _ g3]
  | some l =>
    dsimp only
    by_cases hf : l.get "found_right_record" = Value.b false
    · rw [if_pos hf, if_pos hf, flushFold_data, tagFilterMap_append, g1, g2]
      simp only [List.map_append]
      rw [tagged_reconstruct _ g3]
      rfl
    · rw [if_neg hf, if_neg hf, flushFold_data, tagFilterMap_append, g1, g2,
        tagged_reconstruct _ g3]

theorem tagFilterMap_cons (ml mr : Bool) (x : MTag × Record) (T : List (MTag × Record)) :
    tagFilterMap ml mr (x :: T) =
      (if keepTag ml mr x.1 = true then [x.2] else []) ++ tagFilterMap ml mr T := by
  unfold tagFilterMap
  by_cases h : keepTag ml mr x.1 = true <;> simp [h, List.filter_cons]

theorem cntTag_cons (tags : List MTag) (p : Record → Bool) (x : MTag × Record)
    (T : List (MTag × Record)) :
    cntTag tags p (x :: T) =
      cntTag tags p T + (if (decide (x.1 ∈ tags) && p x.2) = true then 1 else 0) := by
  unfold cntTag
  rw [List.countP_cons]

theorem countP_tagFilterMap (ml mr : Bool) (p : Record → Bool) (T : List (MTag × Record)) :
    (tagFilterMap ml mr T).countP p =
      cntTag [MTag.matched] p T
      + (if ml = true then cntTag [MTag.invL, MTag.empL] p T else 0)
      + (if mr = true then cntTag [MTag.invR, MTag.empR] p T else 0) := by
  induction T with
  | nil => cases ml <;> cases mr <;> simp [tagFilterMap, cntTag]
  | cons x t ih =>
    obtain ⟨tg, rec⟩ := x
    rw [tagFilterMap_cons, List.countP_append, ih, cntTag_cons, cntTag_cons, cntTag_cons]
    cases tg <;> cases ml <;> cases mr <;> by_cases hp : p rec = true <;>
      simp [keepTag, hp, List.countP_cons] <;> omega

theorem mergeOp_data_eq (L R : Records) (jk how : String) (ml mr : Bool)
    (hml : (how == "left" || how == "outer") = ml)
    (hmr : (how == "right" || how == "outer") = mr) :
    (Records.mergeOp L R jk how).1.data =
      (tagFilterMap ml mr (eqTagged jk (eqWorkList L R jk))).map
        (fun r => r.dropCols eqScratch) := by
  unfold Records.mergeOp
  dsimp only
  rw [hml, hmr]
  show ((eqFlushEmpty ml mr _).dropColsIP eqScratch).data = _
  unfold Records.dropColsIP
  dsimp only
  rw [eqWalkData_eq]

theorem length_tagFilterMap (ml mr : Bool) (T : List (MTag × Record)) :
    (tagFilterMap ml mr T).length = T.countP (fun t => keepTag ml mr t.1) := by
  unfold tagFilterMap
  rw [List.length_map, ← List.countP_eq_length_filter]

theorem tagFilterMap_length_mono (T : List (MTag × Record)) (ml mr ml' mr' : Bool)
    (hml : ml = true → ml' = true) (hmr : mr = true → mr' = true) :
    (tagFilterMap ml mr T).length ≤ (tagFilterMap ml' mr' T).length := by
  rw [length_tagFilterMap, length_tagFilterMap]
  apply List.countP_mono_left
  intro x _ hx
  cases hxt : x.1 <;> rw [hxt] at hx <;> simp only [keepTag] at hx ⊢
  · exact hml hx
  · exact hmr hx
  · exact hml hx
  · exact hmr hx
  · exact hx

/-- C7 counterexample: with left `[{a:1}]`, right `[{a:1}]` and join key `k`
(absent everywhere, so both rows are invalid-join-key leftovers), the outer
result holds the row `{a:1}` twice while the left and right results each hold
it once, so the outer result is *not* the multiset union (multiplicity
maximum) of the left and right results. -/
theorem C7_counterexample :
    ¬ (Multiset.ofList (Records.mergeOp (recsOf [[("a", 1)]]) (recsOf [[("a", 1)]])
          "k" "outer").1.data
        = Multiset.ofList (Records.mergeOp (recsOf [[("a", 1)]]) (recsOf [[("a", 1)]])
            "k" "left").1.data
          ∪ Multiset.ofList (Records.mergeOp (recsOf [[("a", 1)]]) (recsOf [[("a", 1)]])
              "k" "right").1.data) := by
  decide

/-- C7 (amended): for every pair of `Records` and join key, the four `how`
variants of `Records.merge` satisfy `|inner| ≤ |left|, |right| ≤ |outer|`,
and for every row value the outer and inner multiplicities sum to the left
and right multiplicities (`outer = left + right - inner` as row multisets;
the plain multiset union understates rows that are unmatched on both
sides). -/
theorem C7_amended_outer_algebra (L R : Records) (jk : String) :
    (Records.mergeOp L R jk "inner").1.data.length
        ≤ (Records.mergeOp L R jk "left").1.data.length ∧
    (Records.mergeOp L R jk "inner").1.data.length
        ≤ (Records.mergeOp L R jk "right").1.data.length ∧
    (Records.mergeOp L R jk "left").1.data.length
        ≤ (Records.mergeOp L R jk "outer").1.data.length ∧
    (Records.mergeOp L R jk "right").1.data.length
        ≤ (Records.mergeOp L R jk "outer").1.data.length ∧
    ∀ v : Record,
      countEq v (Records.mergeOp L R jk "outer").1.data
          + countEq v (Records.mergeOp L R jk "inner").1.data
        = countEq v (Records.mergeOp L R jk "left").1.data
          + countEq v (Records.mergeOp L R jk "right").1.data := by
  have hi := mergeOp_data_eq L R jk "inner" false false (by decide) (by decide)
  have hl := mergeOp_data_eq L R jk "left" true false (by decide) (by decide)
  have hr := mergeOp_data_eq L R jk "right" false true (by decide) (by decide)
  have ho := mergeOp_data_eq L R jk "outer" true true (by decide) (by decide)
  rw [hi, hl, hr, ho]
  refine ⟨?_, ?_, ?_, ?_, ?_⟩
  · rw [List.length_map, List.length_map]
    exact tagFilterMap_length_mono _ false false true false (fun h => by cases h) (fun h => h)
  · rw [List.length_map, List.length_map]
    exact tagFilterMap_length_mono _ false false false true (fun h => h) (fun h => by cases h)
  · rw [List.length_map, List.length_map]
    exact tagFilterMap_length_mono _ true false true true (fun _ => rfl) (fun _ => rfl)
  · rw [List.length_map, List.length_map]
    exact tagFilterMap_length_mono _ false true true true (fun _ => rfl) (fun _ => rfl)
  · intro v
    unfold countEq
    rw [List.countP_map, List.countP_map, List.countP_map, List.countP_map]
    rw [countP_tagFilterMap, countP_tagFilterMap, countP_tagFilterMap, countP_tagFilterMap]
    simp only [if_true, if_false, Bool.false_eq_true]
    omega

theorem Records.ext_pair (a b : Records) (hd : a.data = b.data) (hc : a.columns = b.columns) :
    a = b := by
  cases a
  cases b
  simp only at hd hc
  rw [hd, hc]

theorem Record.hasKey_add_elim (r : Record) (k : String) (v : Value) (c : String)
    (h : (r.add k v).hasKey c = true) : r.hasKey c = true ∨ c = k := by
  rw [Record.hasKey_add] at h
  rcases Bool.or_eq_true _ _ |>.mp h with h | h
  · exact Or.inl h
  · exact Or.inr (by simpa using h)

theorem Record.hasKey_merge_elim (a b : Record) (c : String)
    (h : (Record.merge a b).hasKey c = true) : a.hasKey c = true ∨ b.hasKey c = true := by
  rw [Record.hasKey_merge] at h
  exact Bool.or_eq_true _ _ |>.mp h

theorem Record.hasKey_of_mem (r : Record) (p : String × Value) (hp : p ∈ r.data) :
    r.hasKey p.1 = true :=
  List.any_eq_true.mpr ⟨p, hp, by simp⟩

theorem eqScratch_sub_scratch8 (c : String) (h : c ∈ eqScratch) : c ∈ scratch8 := by
  simp only [eqScratch, List.mem_cons, List.mem_singleton, List.not_mem_nil, or_false] at h
  rcases h with rfl | rfl | rfl | rfl <;> simp [scratch8]

theorem seqScratch_sub_scratch8 (c : String) (h : c ∈ seqScratch) : c ∈ scratch8 := by
  simp only [seqScratch, List.mem_cons, List.mem_singleton, List.not_mem_nil, or_false] at h
  rcases h with rfl | rfl | rfl | rfl | rfl <;> simp [scratch8]

/-- A scratch-free input is returned unchanged by `Records.merge`: the only
mutations it sees are the `side` annotation and the final `drop_columns`,
which cancel. -/
theorem mergeOp_restores_left (L R : Records) (jk how : String) (hL : L.scratchFree) :
    (Records.mergeOp L R jk how).2.1 = L := by
  unfold Records.mergeOp
  dsimp only
  apply Records.ext_pair
  · show (L.data.map (fun r => r.add "side" LEFTv)).map (Record.dropCols · eqScratch) = L.data
    rw [List.map_map]
    have : ∀ r ∈ L.data, ((Record.dropCols · eqScratch) ∘ fun r => r.add "side" LEFTv) r = id r := by
      intro r hr
      show (r.add "side" LEFTv).dropCols eqScratch = r
      apply Record.dropCols_add_self
      · simp [eqScratch]
      · intro p hp hmem
        have h8 := eqScratch_sub_scratch8 _ hmem
        have := hL.2 r hr p.1 h8
        rw [Record.hasKey_of_mem r p hp] at this
        exact Bool.true_eq_false ▸ (by simpa using this)
    rw [List.map_congr_left this, List.map_id]
  · show L.columns \ eqScratch.toFinset = L.columns
    apply Finset.ext
    intro c
    rw [Finset.mem_sdiff, List.mem_toFinset]
    constructor
    · exact fun h => h.1
    · intro h
      refine ⟨h, fun hmem => ?_⟩
      exact hL.1 c (eqScratch_sub_scratch8 _ hmem) h

theorem annotated_dropColsIP_eq (rs : Records) (sv : Value) (ks : List String)
    (hside : "side" ∈ ks) (hsub : ∀ c ∈ ks, c ∈ scratch8) (h : rs.scratchFree) :
    Records.dropColsIP ⟨rs.data.map (fun r => r.add "side" sv), rs.columns⟩ ks = rs := by
  apply Records.ext_pair
  · show (rs.data.map (fun r => r.add "side" sv)).map (Record.dropCols · ks) = rs.data
    rw [List.map_map]
    have : ∀ r ∈ rs.data, ((Record.dropCols · ks) ∘ fun r => r.add "side" sv) r = id r := by
      intro r hr
      show (r.add "side" sv).dropCols ks = r
      apply Record.dropCols_add_self
      · exact hside
      · intro p hp hmem
        have h8 := hsub _ hmem
        have hfree := h.2 r hr p.1 h8
        rw [Record.hasKey_of_mem r p hp] at hfree
        exact absurd hfree (by simp)
    rw [List.map_congr_left this, List.map_id]
  · show rs.columns \ ks.toFinset = rs.columns
    apply Finset.ext
    intro c
    rw [Finset.mem_sdiff, List.mem_toFinset]
    constructor
    · exact fun hh => hh.1
    · intro hh
      exact ⟨hh, fun hmem => h.1 c (hsub _ hmem) hh⟩

theorem mergeOp_restores_right (L R : Records) (jk how : String) (hR : R.scratchFree) :
    (Records.mergeOp L R jk how).2.2 = R := by
  unfold Records.mergeOp
  dsimp only
  exact annotated_dropColsIP_eq R RIGHTv eqScratch (by simp [eqScratch]) eqScratch_sub_scratch8 hR

theorem mergeSequencialOp_restores_left (L R : Records) (ls rs : String) (jk : Option String)
    (how : String) (hL : L.scratchFree) :
    (Records.mergeSequencialOp L R ls rs jk how).2.1 = L := by
  unfold Records.mergeSequencialOp
  dsimp only
  exact annotated_dropColsIP_eq L LEFTv seqScratch (by simp [seqScratch]) seqScratch_sub_scratch8 hL

theorem mergeSequencialOp_restores_right (L R : Records) (ls rs : String) (jk : Option String)
    (how : String) (hR : R.scratchFree) :
    (Records.mergeSequencialOp L R ls rs jk how).2.2 = R := by
  unfold Records.mergeSequencialOp
  dsimp only
  exact annotated_dropColsIP_eq R RIGHTv seqScratch (by simp [seqScratch]) seqScratch_sub_scratch8 hR

theorem hasKey_annotateEq_elim (jk : String) (r : Record) (c : String)
    (h : (annotateEq jk r).hasKey c = true) :
    r.hasKey c = true ∨ c = "has_valid_join_key" ∨ c = "merge_stamp" := by
  unfold annotateEq at h
  dsimp only at h
  by_cases hk : (r.add "has_valid_join_key" (Value.b (r.hasKey jk))).hasKey jk = true
  · rw [if_pos hk] at h
    rcases Record.hasKey_add_elim _ _ _ _ h with h2 | h2
    · rcases Record.hasKey_add_elim _ _ _ _ h2 with h3 | h3
      · exact Or.inl h3
      · exact Or.inr (Or.inl h3)
    · exact Or.inr (Or.inr h2)
  · rw [if_neg hk] at h
    rcases Record.hasKey_add_elim _ _ _ _ h with h2 | h2
    · rcases Record.hasKey_add_elim _ _ _ _ h2 with h3 | h3
      · exact Or.inl h3
      · exact Or.inr (Or.inl h3)
    · exact Or.inr (Or.inr h2)

theorem eqWorkList_keys (L R : Records) (jk : String) (w : Record) (hw : w ∈ eqWorkList L R jk)
    (c : String) (hc : w.hasKey c = true) :
    rowsHaveKey (L.data ++ R.data) c ∨ c ∈ eqScratch := by
  unfold eqWorkList Records.sortData at hw
  rw [mem_stableSortBy, List.mem_map] at hw
  obtain ⟨r1, hr1, rfl⟩ := hw
  have handle : ∀ (r0 : Record), r0 ∈ L.data ++ R.data → ∀ sv : Value,
      r1 = r0.add "side" sv → rowsHaveKey (L.data ++ R.data) c ∨ c ∈ eqScratch := by
    intro r0 hr0 sv hr1eq
    subst hr1eq
    rcases hasKey_annotateEq_elim _ _ _ hc with h | h | h
    · rcases Record.hasKey_add_elim _ _ _ _ h with h2 | h2
      · exact Or.inl ⟨r0, hr0, h2⟩
      · exact Or.inr (by simp [eqScratch, h2])
    · exact Or.inr (by simp [eqScratch, h])
    · exact Or.inr (by simp [eqScratch, h])
  rcases List.mem_append.mp hr1 with h1 | h1
  · rw [List.mem_map] at h1
    obtain ⟨r0, hr0, hre⟩ := h1
    exact handle r0 (List.mem_append.mpr (Or.inl hr0)) LEFTv hre.symm
  · rw [List.mem_map] at h1
    obtain ⟨r0, hr0, hre⟩ := h1
    exact handle r0 (List.mem_append.mpr (Or.inr hr0)) RIGHTv hre.symm

theorem appendOK (m : Records) (r : Record) (OK : String → Prop)
    (h1 : ∀ r' ∈ m.data, ∀ c, r'.hasKey c = true → OK c)
    (h2 : ∀ c ∈ m.columns, OK c)
    (h3 : ∀ c, r.hasKey c = true → OK c) :
    (∀ r' ∈ (m.append r).data, ∀ c, r'.hasKey c = true → OK c) ∧
    (∀ c ∈ (m.append r).columns, OK c) := by
  constructor
  · intro r' hr' c hc
    rcases List.mem_append.mp hr' with h | h
    · exact h1 r' h c hc
    · simp only [List.mem_singleton] at h
      subst h
      exact h3 c hc
  · intro c hc
    rcases Finset.mem_union.mp hc with h | h
    · exact h2 c h
    · exact h3 c ((Record.mem_columns_iff _ _).mp h)

theorem eqWalk_inv (jk : String) (ml mr : Bool) (ws : List Record) (OK : String → Prop)
    (hws : ∀ w ∈ ws, ∀ c, w.hasKey c = true → OK c)
    (hfrr : OK "found_right_record") :
    (∀ r' ∈ (eqFlushEmpty ml mr (ws.foldl (eqMergeStep jk ml mr)
        ⟨Records.init [], [], Option.none⟩)).data, ∀ c, r'.hasKey c = true → OK c) ∧
    (∀ c ∈ (eqFlushEmpty ml mr (ws.foldl (eqMergeStep jk ml mr)
        ⟨Records.init [], [], Option.none⟩)).columns, OK c) := by
  have hfold := foldl_inv (fun st : EqWalkSt =>
      (∀ r' ∈ st.merged.data, ∀ c, r'.hasKey c = true → OK c) ∧
      (∀ c ∈ st.merged.columns, OK c) ∧
      (∀ r' ∈ st.empty, ∀ c, r'.hasKey c = true → OK c) ∧
      (∀ l, st.leftR = some l → ∀ c, l.hasKey c = true → OK c))
    (eqMergeStep jk ml mr) ws ⟨Records.init [], [], Option.none⟩
    (by
      refine ⟨?_, ?_, ?_, ?_⟩
      · intro r' hr'
        cases hr'
      · intro c hc
        simp [Records.init, unionCols] at hc
      · intro r' hr'
        cases hr'
      · intro l hl
        cases hl)
    (by
      intro st x hx hP
      obtain ⟨p1, p2, p3, p4⟩ := hP
      have hxOK : ∀ c, x.hasKey c = true → OK c := hws x hx
      unfold eqMergeStep
      by_cases hv : x.get "has_valid_join_key" = Value.b false
      · rw [if_pos hv]
        by_cases hbl : x.get "side" = LEFTv ∧ ml = true
        · rw [if_pos hbl]
          obtain ⟨q1, q2⟩ := appendOK st.merged x OK p1 p2 hxOK
          exact ⟨q1, q2, p3, p4⟩
        · rw [if_neg hbl]
          by_cases hbr : x.get "side" = RIGHTv ∧ mr = true
          · rw [if_pos hbr]
            obtain ⟨q1, q2⟩ := appendOK st.merged x OK p1 p2 hxOK
            exact ⟨q1, q2, p3, p4⟩
          · rw [if_neg hbr]
            exact ⟨p1, p2, p3, p4⟩
      · rw [if_neg hv]
        by_cases hL : x.get "side" = LEFTv
        · rw [if_pos hL]
          dsimp only
          refine ⟨p1, p2, ?_, ?_⟩
          · cases hlr : st.leftR with
            | none =>
              exact p3
            | some l =>
              by_cases hf : l.get "found_right_record" = Value.b false
              · dsimp only
                rw [if_pos hf]
                intro r' hr' c hc
                rcases List.mem_append.mp hr' with h | h
                · exact p3 r' h c hc
                · simp only [List.mem_singleton] at h
                  subst h
                  exact p4 r' hlr c hc
              · dsimp only
                rw [if_neg hf]
                exact p3
          · intro l2 hl2 c hc
            simp only [Option.some.injEq] at hl2
            subst hl2
            rcases Record.hasKey_add_elim _ _ _ _ hc with h2 | h2
            · exact hxOK c h2
            · exact h2 ▸ hfrr
        · rw [if_neg hL]
          cases hlr : st.leftR with
          | none =>
            dsimp only
            refine ⟨p1, p2, ?_, ?_⟩
            · intro r' hr' c hc
              rcases List.mem_append.mp hr' with h | h
              · exact p3 r' h c hc
              · simp only [List.mem_singleton] at h
                subst h
                exact hxOK c hc
            · intro l2 hl2
              cases hl2
          | some l =>
            dsimp only
            by_cases hm : x.get jk = l.get jk ∧ truthy (x.get "has_valid_join_key") = true
            · rw [if_pos hm]
              have hl'OK : ∀ c, (l.add "found_right_record" (Value.b true)).hasKey c = true → OK c := by
                intro c hc
                rcases Record.hasKey_add_elim _ _ _ _ hc with h2 | h2
                · exact p4 l hlr c h2
                · exact h2 ▸ hfrr
              have hmergedOK : ∀ c,
                  (Record.merge x (l.add "found_right_record" (Value.b true))).hasKey c = true →
                    OK c := by
                intro c hc
                rcases Record.hasKey_merge_elim _ _ _ hc with h2 | h2
                · exact hxOK c h2
                · exact hl'OK c h2
              obtain ⟨q1, q2⟩ := appendOK st.merged _ OK p1 p2 hmergedOK
              refine ⟨q1, q2, p3, ?_⟩
              intro l2 hl2 c hc
              simp only [Option.some.injEq] at hl2
              subst hl2
              exact hl'OK c hc
            · rw [if_neg hm]
              refine ⟨p1, p2, ?_, ?_⟩
              · intro r' hr' c hc
                rcases List.mem_append.mp hr' with h | h
                · exact p3 r' h c hc
                · simp only [List.mem_singleton] at h
                  subst h
                  exact hxOK c hc
              · intro l2 hl2 c hc
                simp only [Option.some.injEq] at hl2
                subst hl2
                exact p4 l hlr c hc)
  obtain ⟨q1, q2, q3, q4⟩ := hfold
  unfold eqFlushEmpty
  have hemp2 : ∀ r' ∈ (match (ws.foldl (eqMergeStep jk ml mr)
      ⟨Records.init [], [], Option.none⟩).leftR with
    | some l =>
      if l.get "found_right_record" = Value.b false then
        (ws.foldl (eqMergeStep jk ml mr) ⟨Records.init [], [], Option.none⟩).empty ++ [l]
      else (ws.foldl (eqMergeStep jk ml mr) ⟨Records.init [], [], Option.none⟩).empty
    | Option.none => (ws.foldl (eqMergeStep jk ml mr) ⟨Records.init [], [], Option.none⟩).empty),
      ∀ c, r'.hasKey c = true → OK c := by
    cases hlr : (ws.foldl (eqMergeStep jk ml mr) ⟨Records.init [], [], Option.none⟩).leftR with
    | none => exact q3
    | some l =>
      dsimp only
      by_cases hf : l.get "found_right_record" = Value.b false
      · rw [if_pos hf]
        intro r' hr' c hc
        rcases List.mem_append.mp hr' with h | h
        · exact q3 r' h c hc
        · simp only [List.mem_singleton] at h
          subst h
          exact q4 r' hlr c hc
      · rw [if_neg hf]
        exact q3
  refine foldl_inv (fun m : Records =>
      (∀ r' ∈ m.data, ∀ c, r'.hasKey c = true → OK c) ∧ (∀ c ∈ m.columns, OK c))
    _ _ _ ⟨q1, q2⟩ ?_
  intro m e he hPm
  by_cases hbl : e.get "side" = LEFTv ∧ ml = true
  · rw [if_pos hbl]
    exact appendOK m e OK hPm.1 hPm.2 (hemp2 e he)
  · rw [if_neg hbl]
    by_cases hbr : e.get "side" = RIGHTv ∧ mr = true
    · rw [if_pos hbr]
      exact appendOK m e OK hPm.1 hPm.2 (hemp2 e he)
    · rw [if_neg hbr]
      exact hPm

theorem scratchFree_no_rowkey (X : Records) (hX : X.scratchFree) (c : String)
    (hc8 : c ∈ scratch8) (r0 : Record) (hr0 : r0 ∈ X.data) (hk : r0.hasKey c = true) :
    False := by
  have := hX.2 r0 hr0 c hc8
  rw [hk] at this
  exact absurd this (by simp)

theorem mergeOp_result_scrubbed (L R : Records) (jk how : String)
    (hL : L.scratchFree) (hR : R.scratchFree) :
    ∀ c ∈ scratch8, (¬ c ∈ (Records.mergeOp L R jk how).1.columns ∧
      ∀ r ∈ (Records.mergeOp L R jk how).1.data, r.hasKey c = false) := by
  intro c hc8
  have hOK := eqWalk_inv jk (how == "left" || how == "outer") (how == "right" || how == "outer")
      (eqWorkList L R jk) (fun c => rowsHaveKey (L.data ++ R.data) c ∨ c ∈ eqScratch)
      (fun w hw c' hc' => eqWorkList_keys L R jk w hw c' hc')
      (Or.inr (by simp [eqScratch]))
  have hinput : ∀ cc, cc ∈ scratch8 → rowsHaveKey (L.data ++ R.data) cc → False := by
    intro cc hcc8 hrows
    obtain ⟨r0, hr0, hk⟩ := hrows
    rcases List.mem_append.mp hr0 with h0 | h0
    · exact scratchFree_no_rowkey L hL cc hcc8 r0 h0 hk
    · exact scratchFree_no_rowkey R hR cc hcc8 r0 h0 hk
  constructor
  · intro hcmem
    unfold Records.mergeOp at hcmem
    dsimp only at hcmem
    unfold Records.dropColsIP at hcmem
    dsimp only at hcmem
    rw [Finset.mem_sdiff, List.mem_toFinset] at hcmem
    obtain ⟨hmem, hnotscr⟩ := hcmem
    rcases hOK.2 c hmem with h | h
    · exact hinput c hc8 h
    · exact hnotscr h
  · intro r hr
    unfold Records.mergeOp at hr
    dsimp only at hr
    unfold Records.dropColsIP at hr
    dsimp only at hr
    rw [List.mem_map] at hr
    obtain ⟨w, hw, rfl⟩ := hr
    rw [Record.hasKey_dropCols]
    by_cases hsc : c ∈ eqScratch
    · simp [hsc]
    · have hwk : w.hasKey c = false := by
        cases hwk : w.hasKey c with
        | false => rfl
        | true =>
          rcases hOK.1 w hw c hwk with h | h
          · exact absurd (hinput c hc8 h) (fun ff => ff)
          · exact absurd h hsc
      simp [hsc, hwk]

theorem hasKey_annotateSeq_elim (jk : Option String) (ls rs : String) (r : Record) (c : String)
    (h : (annotateSeq jk ls rs r).hasKey c = true) :
    r.hasKey c = true ∨ c = "has_valid_join_key" ∨ c = "merge_stamp" ∨ c = "has_merge_stamp" := by
  unfold annotateSeq at h
  dsimp only at h
  split at h
  · rcases Record.hasKey_add_elim _ _ _ _ h with h2 | h2
    · rcases Record.hasKey_add_elim _ _ _ _ h2 with h3 | h3
      · rcases Record.hasKey_add_elim _ _ _ _ h3 with h4 | h4
        · exact Or.inl h4
        · exact Or.inr (Or.inl h4)
      · exact Or.inr (Or.inr (Or.inl h3))
    · exact Or.inr (Or.inr (Or.inr h2))
  · split at h
    · rcases Record.hasKey_add_elim _ _ _ _ h with h2 | h2
      · rcases Record.hasKey_add_elim _ _ _ _ h2 with h3 | h3
        · rcases Record.hasKey_add_elim _ _ _ _ h3 with h4 | h4
          · exact Or.inl h4
          · exact Or.inr (Or.inl h4)
        · exact Or.inr (Or.inr (Or.inr h3))
      · exact Or.inr (Or.inr (Or.inl h2))
    · rcases Record.hasKey_add_elim _ _ _ _ h with h2 | h2
      · rcases Record.hasKey_add_elim _ _ _ _ h2 with h3 | h3
        · rcases Record.hasKey_add_elim _ _ _ _ h3 with h4 | h4
          · exact Or.inl h4
          · exact Or.inr (Or.inl h4)
        · exact Or.inr (Or.inr (Or.inl h3))
      · exact Or.inr (Or.inr (Or.inr h2))

theorem seqWorkList_keys (L R : Records) (ls rs : String) (jk : Option String) (w : Record)
    (hw : w ∈ seqWorkList L R ls rs jk) (c : String) (hc : w.hasKey c = true) :
    rowsHaveKey (L.data ++ R.data) c ∨ c ∈ seqScratch := by
  unfold seqWorkList Records.sortData at hw
  rw [mem_stableSortBy, List.mem_map] at hw
  obtain ⟨r1, hr1, rfl⟩ := hw
  have handle : ∀ (r0 : Record), r0 ∈ L.data ++ R.data → ∀ sv : Value,
      r1 = r0.add "side" sv → rowsHaveKey (L.data ++ R.data) c ∨ c ∈ seqScratch := by
    intro r0 hr0 sv hr1eq
    subst hr1eq
    rcases hasKey_annotateSeq_elim _ _ _ _ _ hc with h | h | h | h
    · rcases Record.hasKey_add_elim _ _ _ _ h with h2 | h2
      · exact Or.inl ⟨r0, hr0, h2⟩
      · exact Or.inr (by simp [seqScratch, h2])
    · exact Or.inr (by simp [seqScratch, h])
    · exact Or.inr (by simp [seqScratch, h])
    · exact Or.inr (by simp [seqScratch, h])
  rcases List.mem_append.mp hr1 with h1 | h1
  · rw [List.mem_map] at h1
    obtain ⟨r0, hr0, hre⟩ := h1
    exact handle r0 (List.mem_append.mpr (Or.inl hr0)) LEFTv hre.symm
  · rw [List.mem_map] at h1
    obtain ⟨r0, hr0, hre⟩ := h1
    exact handle r0 (List.mem_append.mpr (Or.inr hr0)) RIGHTv hre.symm

theorem pendingGet_mem (l : List (Value × Nat)) (v : Value) (li : Nat)
    (h : pendingGet l v = some li) : ∃ e ∈ l, e.2 = li := by
  unfold pendingGet at h
  cases hfind : l.find? (fun p => p.1 == v) with
  | none => rw [hfind] at h; cases h
  | some e =>
    rw [hfind] at h
    simp only [Option.map_some', Option.some.injEq] at h
    exact ⟨e, List.mem_of_find?_eq_some hfind, h⟩

theorem pendingSet_mem (l : List (Value × Nat)) (v : Value) (i : Nat) (e : Value × Nat)
    (he : e ∈ pendingSet l v i) : e ∈ l ∨ e.2 = i := by
  unfold pendingSet at he
  by_cases hany : l.any (fun p => p.1 == v) = true
  · rw [if_pos hany] at he
    rw [List.mem_map] at he
    obtain ⟨e0, he0, heq⟩ := he
    by_cases h0 : e0.1 = v
    · simp only [h0, beq_self_eq_true, if_true] at heq
      exact Or.inr (heq ▸ rfl)
    · simp only [beq_iff_eq, h0, if_false] at heq
      exact Or.inl (heq ▸ he0)
  · rw [if_neg hany] at he
    rcases List.mem_append.mp he with h | h
    · exact Or.inl h
    · simp only [List.mem_singleton] at h
      exact Or.inr (h ▸ rfl)

theorem seqPass1_keys (jk : Option String) (ws : List Record) :
    ∀ p c, ((seqPass1 jk ws).getD p ⟨[]⟩).hasKey c = true →
      (ws.getD p ⟨[]⟩).hasKey c = true ∨ c = "sub_record" := by
  have hfold := foldl_inv (fun st : List Record × List (Value × Nat) =>
      st.1.length = ws.length ∧
      (∀ e ∈ st.2, e.2 < ws.length) ∧
      (∀ p c, (st.1.getD p ⟨[]⟩).hasKey c = true →
        (ws.getD p ⟨[]⟩).hasKey c = true ∨ c = "sub_record"))
    (seqPass1Step jk) (List.range ws.length) (ws, [])
    ⟨rfl, fun e he => absurd he (List.not_mem_nil e), fun p c h => Or.inl h⟩
    (by
      intro st x hx hP
      obtain ⟨hlen, hpend, hkeys⟩ := hP
      rw [List.mem_range] at hx
      have hsetInv : ∀ (idx : Nat) (v : Value), idx < st.1.length →
          (∀ p c, ((st.1.set idx ((st.1.getD idx ⟨[]⟩).add "sub_record" v)).getD p ⟨[]⟩).hasKey c
              = true → (ws.getD p ⟨[]⟩).hasKey c = true ∨ c = "sub_record") := by
        intro idx v hidx p c hkc
        by_cases hp : p = idx
        · subst hp
          rw [listGetD_set_self _ _ _ _ hidx] at hkc
          rcases Record.hasKey_add_elim _ _ _ _ hkc with h2 | h2
          · exact hkeys p c h2
          · exact Or.inr h2
        · rw [listGetD_set_ne _ _ _ _ _ hp] at hkc
          exact hkeys p c hkc
      unfold seqPass1Step
      dsimp only
      split
      · -- LEFT row with merge stamp
        cases hjv : getJoinValue jk ((st.1.getD x ⟨[]⟩).add "sub_record" Value.none) with
        | none =>
          dsimp only
          refine ⟨by rw [List.length_set]; exact hlen, hpend, ?_⟩
          exact hsetInv x Value.none (hlen ▸ hx)
        | some jv =>
          dsimp only
          refine ⟨by rw [List.length_set]; exact hlen, ?_, ?_⟩
          · intro e he
            rcases pendingSet_mem _ _ _ _ he with h | h
            · exact hpend e h
            · exact h ▸ hx
          · exact hsetInv x Value.none (hlen ▸ hx)
      · split
        · -- RIGHT row with merge stamp
          cases hjv : getJoinValue jk (st.1.getD x ⟨[]⟩) with
          | none => exact ⟨hlen, hpend, hkeys⟩
          | some jv =>
            dsimp only
            cases hget : pendingGet st.2 jv with
            | none => exact ⟨hlen, hpend, hkeys⟩
            | some li =>
              have hli : li < ws.length := by
                obtain ⟨e, he, heq⟩ := pendingGet_mem _ _ _ hget
                exact heq ▸ hpend e he
              dsimp only
              refine ⟨by rw [List.length_set]; exact hlen, ?_, ?_⟩
              · intro e he
                exact hpend e (List.mem_of_mem_filter he)
              · exact hsetInv li (Value.ref x) (hlen ▸ hli)
        · exact ⟨hlen, hpend, hkeys⟩)
  exact hfold.2.2

theorem renderEmit_keys (ws2 : List Record) (e : Emit) (OK : String → Prop)
    (hws2 : ∀ p c, (ws2.getD p ⟨[]⟩).hasKey c = true → OK c) :
    ∀ c, (renderEmit ws2 e).hasKey c = true → OK c := by
  cases e with
  | single i => exact fun c hc => hws2 i c hc
  | pair i j =>
    intro c hc
    unfold renderEmit at hc
    rcases Record.hasKey_merge_elim _ _ _ hc with h | h
    · rcases Record.hasKey_merge_elim _ _ _ h with h2 | h2
      · exact absurd h2 (by simp [Record.hasKey])
      · exact hws2 i c h2
    · exact hws2 j c h

theorem mergeSequencialOp_result_scrubbed (L R : Records) (ls rs : String) (jk : Option String)
    (how : String) (hL : L.scratchFree) (hR : R.scratchFree) :
    ∀ c ∈ scratch8, (¬ c ∈ (Records.mergeSequencialOp L R ls rs jk how).1.columns ∧
      ∀ r ∈ (Records.mergeSequencialOp L R ls rs jk how).1.data, r.hasKey c = false) := by
  intro c hc8
  have hinput : ∀ cc, cc ∈ scratch8 → rowsHaveKey (L.data ++ R.data) cc → False := by
    intro cc hcc8 hrows
    obtain ⟨r0, hr0, hk⟩ := hrows
    rcases List.mem_append.mp hr0 with h0 | h0
    · exact scratchFree_no_rowkey L hL cc hcc8 r0 h0 hk
    · exact scratchFree_no_rowkey R hR cc hcc8 r0 h0 hk
  have hws2 : ∀ p cc, ((seqPass1 jk (seqWorkList L R ls rs jk)).getD p ⟨[]⟩).hasKey cc = true →
      rowsHaveKey (L.data ++ R.data) cc ∨ cc ∈ seqScratch := by
    intro p cc h
    rcases seqPass1_keys jk _ p cc h with h2 | h2
    · by_cases hp : p < (seqWorkList L R ls rs jk).length
      · have hmem : (seqWorkList L R ls rs jk).getD p ⟨[]⟩ ∈ seqWorkList L R ls rs jk := by
          rw [List.getD_eq_getElem _ _ hp]
          exact List.getElem_mem hp
        exact seqWorkList_keys L R ls rs jk _ hmem cc h2
      · rw [List.getD_eq_default _ _ (by omega)] at h2
        exact absurd h2 (by simp [Record.hasKey])
    · exact Or.inr (by simp [seqScratch, h2])
  have hrows : ∀ r ∈ ((seqPass2 (seqPass1 jk (seqWorkList L R ls rs jk))
        (how == "left" || how == "outer") (how == "right" || how == "outer")).map
        (renderEmit (seqPass1 jk (seqWorkList L R ls rs jk)))),
      ∀ cc, r.hasKey cc = true → rowsHaveKey (L.data ++ R.data) cc ∨ cc ∈ seqScratch := by
    intro r hr cc
    rw [List.mem_map] at hr
    obtain ⟨e, he, rfl⟩ := hr
    exact fun h => renderEmit_keys _ e _ hws2 cc h
  constructor
  · intro hcmem
    unfold Records.mergeSequencialOp at hcmem
    dsimp only at hcmem
    unfold Records.dropColsIP at hcmem
    dsimp only at hcmem
    rw [Finset.mem_sdiff, List.mem_toFinset] at hcmem
    obtain ⟨hmem, hnotscr⟩ := hcmem
    show False
    unfold Records.init at hmem
    dsimp only at hmem
    rw [mem_unionCols_iff] at hmem
    obtain ⟨r0, hr0, hk0⟩ := hmem
    rcases hrows r0 hr0 c hk0 with h | h
    · exact hinput c hc8 h
    · exact hnotscr h
  · intro r hr
    unfold Records.mergeSequencialOp at hr
    dsimp only at hr
    unfold Records.dropColsIP at hr
    dsimp only at hr
    rw [List.mem_map] at hr
    obtain ⟨w, hw, rfl⟩ := hr
    rw [Record.hasKey_dropCols]
    by_cases hsc : c ∈ seqScratch
    · simp [hsc]
    · have hwk : w.hasKey c = false := by
        cases hwk : w.hasKey c with
        | false => rfl
        | true =>
          unfold Records.init at hw
          dsimp only at hw
          rcases hrows w hw c hwk with h | h
          · exact absurd (hinput c hc8 h) (fun ff => ff)
          · exact absurd h hsc
      simp [hsc, hwk]

theorem hasKey_annotateAddr_elim (ty : Value) (stampK : String) (r : Record) (c : String)
    (h : (annotateAddr ty stampK r).hasKey c = true) :
    r.hasKey c = true ∨ c = "type" ∨ c = "timestamp" := by
  unfold annotateAddr at h
  dsimp only at h
  rcases Record.hasKey_add_elim _ _ _ _ h with h2 | h2
  · rcases Record.hasKey_add_elim _ _ _ _ h2 with h3 | h3
    · exact Or.inl h3
    · exact Or.inr (Or.inl h3)
  · exact Or.inr (Or.inr h2)

theorem addrWorkList_keys (SRC CPY SNK : Records) (sS cS kS : String) (w : Record)
    (hw : w ∈ addrWorkList SRC sS CPY cS SNK kS) (c : String) (hc : w.hasKey c = true) :
    rowsHaveKey (SRC.data ++ CPY.data ++ SNK.data) c ∨ c = "type" ∨ c = "timestamp" := by
  unfold addrWorkList Records.sortData at hw
  rw [mem_stableSortBy] at hw
  have handle : ∀ (r0 : Record), r0 ∈ SRC.data ++ CPY.data ++ SNK.data → ∀ ty sk,
      w = annotateAddr ty sk r0 →
      rowsHaveKey (SRC.data ++ CPY.data ++ SNK.data) c ∨ c = "type" ∨ c = "timestamp" := by
    intro r0 hr0 ty sk hweq
    subst hweq
    rcases hasKey_annotateAddr_elim _ _ _ _ hc with h | h | h
    · exact Or.inl ⟨r0, hr0, h⟩
    · exact Or.inr (Or.inl h)
    · exact Or.inr (Or.inr h)
  rcases List.mem_append.mp hw with h1 | h1
  · rcases List.mem_append.mp h1 with h2 | h2
    · rw [List.mem_map] at h2
      obtain ⟨r0, hr0, hre⟩ := h2
      exact handle r0 (by rw [List.append_assoc]; exact List.mem_append.mpr (Or.inl hr0)) _ _
        hre.symm
    · rw [List.mem_map] at h2
      obtain ⟨r0, hr0, hre⟩ := h2
      refine handle r0 ?_ _ _ hre.symm
      rw [List.append_assoc]
      exact List.mem_append.mpr (Or.inr (List.mem_append.mpr (Or.inl hr0)))
  · rw [List.mem_map] at h1
    obtain ⟨r0, hr0, hre⟩ := h1
    refine handle r0 ?_ _ _ hre.symm
    rw [List.append_assoc]
    exact List.mem_append.mpr (Or.inr (List.mem_append.mpr (Or.inr hr0)))

theorem addrSweep_inv (srcK cF cT sfk : String) (ws : List Record) (OK : String → Prop)
    (hws : ∀ w ∈ ws, ∀ c, w.hasKey c = true → OK c)
    (hsfk : OK sfk) :
    (∀ r' ∈ (addrSweep srcK cF cT sfk ws).processing, ∀ c, r'.hasKey c = true → OK c) ∧
    (∀ r' ∈ (addrSweep srcK cF cT sfk ws).merged.data, ∀ c, r'.hasKey c = true → OK c) ∧
    (∀ c ∈ (addrSweep srcK cF cT sfk ws).merged.columns, OK c) := by
  unfold addrSweep
  refine foldl_inv (fun st : AddrSt =>
      (∀ r' ∈ st.processing, ∀ c, r'.hasKey c = true → OK c) ∧
      (∀ r' ∈ st.merged.data, ∀ c, r'.hasKey c = true → OK c) ∧
      (∀ c ∈ st.merged.columns, OK c))
    _ ws ⟨[], [], Records.init []⟩
    ⟨(by intro r' h; cases h), (by intro r' h; cases h),
      (by intro c hc; simp [Records.init, unionCols] at hc)⟩ ?_
  intro st x hx hP
  obtain ⟨p1, p2, p3⟩ := hP
  have hxOK := hws x hx
  have hgetD : ∀ (l : List Record), (∀ r' ∈ l, ∀ c, r'.hasKey c = true → OK c) →
      ∀ i c, (l.getD i ⟨[]⟩).hasKey c = true → OK c := by
    intro l hl i c hc
    by_cases hi : i < l.length
    · rw [List.getD_eq_getElem _ _ hi] at hc
      exact hl _ (List.getElem_mem hi) c hc
    · rw [List.getD_eq_default _ _ (by omega)] at hc
      exact absurd hc (by simp [Record.hasKey])
  unfold addrStep
  by_cases h2 : x.get "type" = Value.i 2
  · rw [if_pos h2]
    refine ⟨?_, p2, p3⟩
    intro r' hr' c hc
    rcases List.mem_append.mp hr' with h | h
    · exact p1 r' h c hc
    · simp only [List.mem_singleton] at h
      subst h
      rcases Record.hasKey_add_elim _ _ _ _ hc with hh | hh
      · exact hxOK c hh
      · exact hh ▸ hsfk
  · rw [if_neg h2]
    by_cases h1 : x.get "type" = Value.i 1
    · rw [if_pos h1]
      dsimp only
      cases hfi : List.findIdx? (fun y => decide (getIntV (x.get cT) ∈ cellOf st.store sfk y))
          st.processing with
      | none => exact ⟨p1, p2, p3⟩
      | some p =>
        dsimp only
        refine foldl_inv (fun s : AddrSt =>
            (∀ r' ∈ s.processing, ∀ c, r'.hasKey c = true → OK c) ∧
            (∀ r' ∈ s.merged.data, ∀ c, r'.hasKey c = true → OK c) ∧
            (∀ c ∈ s.merged.columns, OK c))
          _ _ _ ⟨p1, p2, p3⟩ ?_
        intro s q hq hPs
        obtain ⟨q1, q2, q3⟩ := hPs
        unfold addrMergeKeysStep
        dsimp only
        split
        · refine ⟨?_, q2, q3⟩
          intro r' hr' c hc
          rcases List.mem_or_eq_of_mem_set hr' with h | h
          · rcases List.mem_or_eq_of_mem_set h with hh | hh
            · exact q1 r' hh c hc
            · subst hh
              rcases Record.hasKey_add_elim _ _ _ _ hc with hk | hk
              · exact hgetD s.processing q1 _ c hk
              · exact hk ▸ hsfk
          · subst h
            rcases Record.hasKey_add_elim _ _ _ _ hc with hk | hk
            · exact hgetD s.processing q1 _ c hk
            · exact hk ▸ hsfk
        · exact ⟨q1, q2, q3⟩
    · rw [if_neg h1]
      by_cases h0 : x.get "type" = Value.i 0
      · rw [if_pos h0]
        dsimp only
        have hrest : ∀ r' ∈ st.processing.filter
            (fun y => decide (¬ getIntV (x.get srcK) ∈ cellOf st.store sfk y)),
            ∀ c, r'.hasKey c = true → OK c := by
          intro r' hr'
          exact p1 r' (List.mem_of_mem_filter hr')
        have hfoldm := foldl_inv (fun m : Records =>
            (∀ r' ∈ m.data, ∀ c, r'.hasKey c = true → OK c) ∧ (∀ c ∈ m.columns, OK c))
          (fun m y => m.append (Record.merge y x))
          (st.processing.filter (fun y => decide (getIntV (x.get srcK) ∈ cellOf st.store sfk y)))
          st.merged ⟨p2, p3⟩
          (by
            intro m y hy hPm
            have hyOK : ∀ c, (Record.merge y x).hasKey c = true → OK c := by
              intro c hc
              rcases Record.hasKey_merge_elim _ _ _ hc with hk | hk
              · exact p1 y (List.mem_of_mem_filter hy) c hk
              · exact hxOK c hk
            exact appendOK m _ OK hPm.1 hPm.2 hyOK)
        exact ⟨hrest, hfoldm.1, hfoldm.2⟩
      · rw [if_neg h0]
        exact ⟨p1, p2, p3⟩

theorem addrTrack_result_scrubbed (SRC CPY SNK : Records) (sS sK cS cF cT kS sfk : String)
    (hS : SRC.scratchFree) (hC : CPY.scratchFree) (hK : SNK.scratchFree) :
    ∀ c ∈ scratch8,
      (¬ c ∈ (Records.mergeSequencialForAddrTrack SRC sS sK CPY cS cF cT SNK kS sfk).columns ∧
      ∀ r ∈ (Records.mergeSequencialForAddrTrack SRC sS sK CPY cS cF cT SNK kS sfk).data,
        r.hasKey c = false) := by
  intro c hc8
  have hinput : ∀ cc, cc ∈ scratch8 → rowsHaveKey (SRC.data ++ CPY.data ++ SNK.data) cc →
      False := by
    intro cc hcc8 hrows
    obtain ⟨r0, hr0, hk⟩ := hrows
    rcases List.mem_append.mp hr0 with h0 | h0
    · rcases List.mem_append.mp h0 with h00 | h00
      · exact scratchFree_no_rowkey SRC hS cc hcc8 r0 h00 hk
      · exact scratchFree_no_rowkey CPY hC cc hcc8 r0 h00 hk
    · exact scratchFree_no_rowkey SNK hK cc hcc8 r0 h0 hk
  have hOK := addrSweep_inv sK cF cT sfk (addrWorkList SRC sS CPY cS SNK kS)
      (fun cc => rowsHaveKey (SRC.data ++ CPY.data ++ SNK.data) cc
        ∨ cc = "type" ∨ cc = "timestamp" ∨ cc = sfk)
      (fun w hw cc hc => by
        rcases addrWorkList_keys SRC CPY SNK sS cS kS w hw cc hc with h | h | h
        · exact Or.inl h
        · exact Or.inr (Or.inl h)
        · exact Or.inr (Or.inr (Or.inl h)))
      (Or.inr (Or.inr (Or.inr rfl)))
  have hdrop : ∀ cc, cc ∈ ["type", "timestamp", sfk] ↔
      (cc = "type" ∨ cc = "timestamp" ∨ cc = sfk) := by
    intro cc
    simp [List.mem_cons]
  constructor
  · intro hcmem
    unfold Records.mergeSequencialForAddrTrack at hcmem
    dsimp only at hcmem
    unfold Records.dropColsIP at hcmem
    dsimp only at hcmem
    rw [Finset.mem_sdiff, List.mem_toFinset] at hcmem
    obtain ⟨hmem, hnotscr⟩ := hcmem
    rcases hOK.2.2 c hmem with h | h
    · exact hinput c hc8 h
    · exact hnotscr ((hdrop c).mpr h)
  · intro r hr
    unfold Records.mergeSequencialForAddrTrack at hr
    dsimp only at hr
    unfold Records.dropColsIP at hr
    dsimp only at hr
    rw [List.mem_map] at hr
    obtain ⟨w, hw, rfl⟩ := hr
    rw [Record.hasKey_dropCols]
    by_cases hsc : c ∈ ["type", "timestamp", sfk]
    · simp [hsc]
    · have hwk : w.hasKey c = false := by
        cases hwk : w.hasKey c with
        | false => rfl
        | true =>
          rcases hOK.2.1 w hw c hwk with h | h
          · exact absurd (hinput c hc8 h) (fun ff => ff)
          · exact absurd ((hdrop c).mpr h) hsc
      simp [hsc, hwk]

/-- C6 counterexample: an input `Records` whose rows genuinely carry a column
named `side` is clobbered by `Records.merge`: the annotation overwrites the
value and the final `drop_columns` removes the column from the rows and from
the declared set, so the input is not observably equal to its state before
the call. -/
theorem C6_counterexample :
    ¬ ((Records.mergeOp (recsOf [[("side", 5), ("k", 1)]]) (recsOf []) "k" "inner").2.1).equals
        (recsOf [[("side", 5), ("k", 1)]]) := by
  decide

/-- C6 (amended): provided no input declares or contains any of the eight
scratch-column names, every merge returns `Records` in which no scratch
column occurs (neither in the declared set nor in any row), and
`Records.merge` and `merge_sequencial` return both inputs observably (here:
structurally) unchanged.  `merge_sequencial_for_addr_track` deep-copies its
inputs at entry, so it never touches them. -/
theorem C6_amended_scratch_hygiene (L R SRC CPY SNK : Records) (jk ls rs : String)
    (jko : Option String) (how : String) (sS sK cS cF cT kS sfk : String)
    (hL : L.scratchFree) (hR : R.scratchFree)
    (hS : SRC.scratchFree) (hC : CPY.scratchFree) (hK : SNK.scratchFree) :
    ((Records.mergeOp L R jk how).2.1 = L ∧ (Records.mergeOp L R jk how).2.2 = R) ∧
    (∀ c ∈ scratch8, (¬ c ∈ (Records.mergeOp L R jk how).1.columns ∧
      ∀ r ∈ (Records.mergeOp L R jk how).1.data, r.hasKey c = false)) ∧
    ((Records.mergeSequencialOp L R ls rs jko how).2.1 = L ∧
      (Records.mergeSequencialOp L R ls rs jko how).2.2 = R) ∧
    (∀ c ∈ scratch8, (¬ c ∈ (Records.mergeSequencialOp L R ls rs jko how).1.columns ∧
      ∀ r ∈ (Records.mergeSequencialOp L R ls rs jko how).1.data, r.hasKey c = false)) ∧
    (∀ c ∈ scratch8,
      (¬ c ∈ (Records.mergeSequencialForAddrTrack SRC sS sK CPY cS cF cT SNK kS sfk).columns ∧
      ∀ r ∈ (Records.mergeSequencialForAddrTrack SRC sS sK CPY cS cF cT SNK kS sfk).data,
        r.hasKey c = false)) :=
  ⟨⟨mergeOp_restores_left L R jk how hL, mergeOp_restores_right L R jk how hR⟩,
    mergeOp_result_scrubbed L R jk how hL hR,
    ⟨mergeSequencialOp_restores_left L R ls rs jko how hL,
      mergeSequencialOp_restores_right L R ls rs jko how hR⟩,
    mergeSequencialOp_result_scrubbed L R ls rs jko how hL hR,
    addrTrack_result_scrubbed SRC CPY SNK sS sK cS cF cT kS sfk hS hC hK⟩

theorem C6_amended_witness :
    (recsOf [[("k", 1), ("a", 2)]]).scratchFree ∧ (recsOf [[("k", 1), ("b", 3)]]).scratchFree ∧
    (Records.mergeOp (recsOf [[("k", 1), ("a", 2)]]) (recsOf [[("k", 1), ("b", 3)]])
        "k" "inner").2.1 = recsOf [[("k", 1), ("a", 2)]] :=
  ⟨by decide, by decide,
    (C6_amended_scratch_hygiene (recsOf [[("k", 1), ("a", 2)]]) (recsOf [[("k", 1), ("b", 3)]])
        (recsOf []) (recsOf []) (recsOf []) "k" "ls" "rs" Option.none "inner"
        "sS" "sK" "cS" "cF" "cT" "kS" "sf"
        (by decide) (by decide) (by decide) (by decide) (by decide)).1.1⟩

theorem find?_map_replace_self {α β : Type} [DecidableEq α] (l : List (α × β)) (k : α) (v : β)
    (h : l.any (fun p => p.1 == k) = true) :
    (l.map (fun p => if p.1 == k then (k, v) else p)).find? (fun p => p.1 == k) = some (k, v) := by
  rw [List.find?_map]
  have hpred : ((fun p : α × β => p.1 == k) ∘
      (fun p => if p.1 == k then (k, v) else p)) = fun p : α × β => p.1 == k := by
    funext q
    by_cases hq : q.1 = k <;> simp [hq]
  rw [hpred]
  simp only [List.any_eq_true] at h
  obtain ⟨q0, hq0m, hq0⟩ := h
  have : (l.find? (fun p : α × β => p.1 == k)).isSome = true :=
    List.find?_isSome.mpr ⟨q0, hq0m, hq0⟩
  obtain ⟨q1, hq1⟩ := Option.isSome_iff_exists.mp this
  have hq1k : q1.1 = k := by simpa using List.find?_some hq1
  simp [hq1, hq1k]

theorem find?_map_replace_ne {α β : Type} [DecidableEq α] (l : List (α × β)) (k c : α) (v : β)
    (hck : ¬ c = k) :
    (l.map (fun p => if p.1 == k then (k, v) else p)).find? (fun p => p.1 == c) =
      l.find? (fun p => p.1 == c) := by
  rw [List.find?_map]
  have hpred : ((fun p : α × β => p.1 == c) ∘
      (fun p => if p.1 == k then (k, v) else p)) = fun p : α × β => p.1 == c := by
    funext q
    by_cases hq : q.1 = k
    · simp [hq, fun hh : k = c => hck hh.symm]
    · simp [hq]
  rw [hpred]
  cases hfind : l.find? (fun p : α × β => p.1 == c) with
  | none => rfl
  | some q1 =>
    have hq1c : q1.1 = c := by simpa using List.find?_some hfind
    simp [hq1c, fun hh : c = k => hck hh]

theorem pendingGet_pendingSet_self (l : List (Value × Nat)) (v : Value) (i : Nat) :
    pendingGet (pendingSet l v i) v = some i := by
  unfold pendingGet pendingSet
  by_cases hany : l.any (fun p => p.1 == v) = true
  · rw [if_pos hany, find?_map_replace_self _ _ _ hany]
    rfl
  · rw [if_neg hany, List.find?_append]
    have hnone : l.find? (fun p => p.1 == v) = Option.none := by
      rw [List.find?_eq_none]
      intro x hx hpx
      exact hany (List.any_eq_true.mpr ⟨x, hx, hpx⟩)
    simp [hnone, List.find?]

theorem pendingGet_pendingSet_ne (l : List (Value × Nat)) (v v' : Value) (i : Nat)
    (hne : ¬ v = v') :
    pendingGet (pendingSet l v' i) v = pendingGet l v := by
  unfold pendingGet pendingSet
  by_cases hany : l.any (fun p => p.1 == v') = true
  · rw [if_pos hany, find?_map_replace_ne _ _ _ _ hne]
  · rw [if_neg hany, List.find?_append]
    have hnone : ([(v', i)].find? (fun p => p.1 == v)) = Option.none := by
      rw [List.find?_eq_none]
      intro x hx
      simp only [List.mem_singleton] at hx
      subst hx
      simp only [beq_iff_eq]
      exact fun hh => hne hh.symm
    cases hfind : l.find? (fun p => p.1 == v) with
    | none => simp [hnone]
    | some q => simp

theorem pendingGet_pendingErase_self (l : List (Value × Nat)) (v : Value) :
    pendingGet (pendingErase l v) v = Option.none := by
  unfold pendingGet pendingErase
  have : (l.filter (fun p => ¬ p.1 == v)).find? (fun p => p.1 == v) = Option.none := by
    rw [List.find?_eq_none]
    intro x hx
    have := List.of_mem_filter hx
    simpa using this
  simp [this]

theorem find?_filter_ne' {α β : Type} [DecidableEq α] (l : List (α × β)) (k c : α)
    (hck : ¬ c = k) :
    (l.filter (fun p => ¬ p.1 == k)).find? (fun p => p.1 == c) =
      l.find? (fun p => p.1 == c) := by
  induction l with
  | nil => simp
  | cons p t ih =>
    by_cases hp : p.1 = k
    · have hfp : (decide ¬(p.1 == k) = true) = false := by simp [hp]
      simp only [List.filter_cons, hfp, Bool.false_eq_true, if_false]
      rw [ih]
      have hkc : ¬ k = c := fun hh => hck hh.symm
      have hpc : (p.1 == c) = false := by simp [hp, hkc]
      simp [List.find?_cons, hpc]
    · have hfp : (decide ¬(p.1 == k) = true) = true := by simp [hp]
      simp only [List.filter_cons, hfp, if_true]
      by_cases hpc : p.1 = c
      · simp [List.find?_cons, hpc]
      · have hfc : (p.1 == c) = false := by simp [hpc]
        simp only [List.find?_cons, hfc, Bool.false_eq_true, if_false]
        exact ih

theorem pendingGet_pendingErase_ne (l : List (Value × Nat)) (v v' : Value) (hne : ¬ v = v') :
    pendingGet (pendingErase l v') v = pendingGet l v := by
  unfold pendingGet pendingErase
  rw [find?_filter_ne' l v' v hne]

theorem Record.get_add_self (r : Record) (k : String) (v : Value) : (r.add k v).get k = v := by
  unfold Record.get
  rw [Record.lookup_add]
  simp

theorem Record.get_add_ne (r : Record) (k : String) (v : Value) (c : String) (h : ¬ c = k) :
    (r.add k v).get c = r.get c := by
  unfold Record.get
  rw [Record.lookup_add]
  simp [h]

theorem Record.add_add_same (r : Record) (k : String) (a b : Value) :
    (r.add k a).add k b = r.add k b := by
  by_cases hk : r.hasKey k = true
  · have e1 : r.add k a = ⟨r.data.map (fun p => if p.1 == k then (k, a) else p)⟩ := by
      unfold Record.add
      rw [if_pos hk]
    have e2 : r.add k b = ⟨r.data.map (fun p => if p.1 == k then (k, b) else p)⟩ := by
      unfold Record.add
      rw [if_pos hk]
    have hk2 : (Record.mk (r.data.map (fun p => if p.1 == k then (k, a) else p))).hasKey k
        = true := by
      rw [← e1, Record.hasKey_add]
      simp
    have e3 : (Record.mk (r.data.map (fun p => if p.1 == k then (k, a) else p))).add k b
        = ⟨(r.data.map (fun p => if p.1 == k then (k, a) else p)).map
            (fun p => if p.1 == k then (k, b) else p)⟩ := by
      unfold Record.add
      rw [if_pos hk2]
    rw [e1, e3, e2]
    apply Record.ext'
    show _ = _
    rw [List.map_map]
    apply List.map_congr_left
    intro p _
    by_cases hp : p.1 = k <;> simp [hp]
  · have e1 : r.add k a = ⟨r.data ++ [(k, a)]⟩ := by
      unfold Record.add
      rw [if_neg hk]
    have e2 : r.add k b = ⟨r.data ++ [(k, b)]⟩ := by
      unfold Record.add
      rw [if_neg hk]
    have hk2 : (Record.mk (r.data ++ [(k, a)])).hasKey k = true := by
      rw [← e1, Record.hasKey_add]
      simp
    have e3 : (Record.mk (r.data ++ [(k, a)])).add k b
        = ⟨(r.data ++ [(k, a)]).map (fun p => if p.1 == k then (k, b) else p)⟩ := by
      unfold Record.add
      rw [if_pos hk2]
    rw [e1, e3, e2]
    apply Record.ext'
    show _ = _
    rw [List.map_append]
    have hmap : r.data.map (fun p => if p.1 == k then (k, b) else p) = r.data := by
      have hcg : ∀ p ∈ r.data, (fun p : String × Value => if p.1 == k then (k, b) else p) p
          = id p := by
        intro p hp
        have : ¬ p.1 = k := by
          intro hh
          unfold Record.hasKey at hk
          exact hk (List.any_eq_true.mpr ⟨p, hp, by simp [hh]⟩)
        simp [this]
      rw [List.map_congr_left hcg, List.map_id]
    rw [hmap]
    simp

theorem getJoinValue_add_ne (k : String) (r : Record) (k' : String) (v : Value) (h : ¬ k = k') :
    getJoinValue (some k) (r.add k' v) = getJoinValue (some k) r := by
  unfold getJoinValue
  dsimp only
  have hbk : (r.add k' v).hasKey k = r.hasKey k := by
    rw [Record.hasKey_add]
    have : (k == k') = false := by simp [h]
    rw [this, Bool.or_false]
  rw [hbk]
  by_cases hh : r.hasKey k = true
  · rw [if_pos hh, if_pos hh, Record.get_add_ne _ _ _ _ h]
  · rw [if_neg hh, if_neg hh]

theorem pendingGet_mem' (l : List (Value × Nat)) (v : Value) (li : Nat)
    (h : pendingGet l v = some li) : (v, li) ∈ l := by
  unfold pendingGet at h
  cases hfind : l.find? (fun p => p.1 == v) with
  | none => rw [hfind] at h; cases h
  | some e =>
    rw [hfind] at h
    simp only [Option.map_some', Option.some.injEq] at h
    have hkey : e.1 = v := by simpa using List.find?_some hfind
    have := List.mem_of_find?_eq_some hfind
    rw [← hkey, ← h]
    exact this

theorem pendingSet_mem' (l : List (Value × Nat)) (v : Value) (i : Nat) (e : Value × Nat)
    (he : e ∈ pendingSet l v i) : (e ∈ l ∧ ¬ e.1 = v) ∨ e = (v, i) := by
  unfold pendingSet at he
  by_cases hany : l.any (fun p => p.1 == v) = true
  · rw [if_pos hany] at he
    rw [List.mem_map] at he
    obtain ⟨e0, he0, heq⟩ := he
    by_cases h0 : e0.1 = v
    · simp only [h0, beq_self_eq_true, if_true] at heq
      exact Or.inr heq.symm
    · simp only [beq_iff_eq, h0, if_false] at heq
      exact Or.inl (heq ▸ ⟨he0, h0⟩)
  · rw [if_neg hany] at he
    rcases List.mem_append.mp he with h | h
    · refine Or.inl ⟨h, ?_⟩
      intro hh
      exact hany (List.any_eq_true.mpr ⟨e, h, by simp [hh]⟩)
    · simp only [List.mem_singleton] at h
      exact Or.inr h

/-! ## Shape of the working list through the first pass of `merge_sequencial` -/

theorem Record.get_of_hasKey_false (r : Record) (k : String) (h : r.hasKey k = false) :
    r.get k = Value.none := by
  unfold Record.get
  have : r.lookup k = Option.none := by
    have := Record.hasKey_eq_isSome r k
    rw [h] at this
    exact Option.not_isSome_iff_eq_none.mp (by rw [← this]; simp)
  rw [this]
  rfl

theorem SubShape_get_ne (ws : List Record) (p : Nat) (r : Record) (c : String)
    (hs : SubShape ws p r) (hc : ¬ c = "sub_record") :
    r.get c = (ws.getD p ⟨[]⟩).get c := by
  rcases hs with h | h | ⟨q, _, h⟩
  · rw [h]
  · rw [h, Record.get_add_ne _ _ _ _ hc]
  · rw [h, Record.get_add_ne _ _ _ _ hc]

theorem SubShape_join (ws : List Record) (p : Nat) (r : Record) (k : String)
    (hs : SubShape ws p r) (hk : ¬ k = "sub_record") :
    getJoinValue (some k) r = getJoinValue (some k) (ws.getD p ⟨[]⟩) := by
  rcases hs with h | h | ⟨q, _, h⟩
  · rw [h]
  · rw [h, getJoinValue_add_ne _ _ _ _ hk]
  · rw [h, getJoinValue_add_ne _ _ _ _ hk]

theorem SubShape_add_none (ws : List Record) (p : Nat) (r : Record)
    (hs : SubShape ws p r) : SubShape ws p (r.add "sub_record" Value.none) := by
  rcases hs with h | h | ⟨q, _, h⟩
  · exact Or.inr (Or.inl (by rw [h]))
  · exact Or.inr (Or.inl (by rw [h, Record.add_add_same]))
  · exact Or.inr (Or.inl (by rw [h, Record.add_add_same]))

theorem SubShape_add_ref (ws : List Record) (p : Nat) (r : Record) (q : Nat)
    (hs : SubShape ws p r) (hq : rightStampRow (ws.getD q ⟨[]⟩)) :
    SubShape ws p (r.add "sub_record" (Value.ref q)) := by
  rcases hs with h | h | ⟨q', _, h⟩
  · exact Or.inr (Or.inr ⟨q, hq, by rw [h]⟩)
  · exact Or.inr (Or.inr ⟨q, hq, by rw [h, Record.add_add_same]⟩)
  · exact Or.inr (Or.inr ⟨q, hq, by rw [h, Record.add_add_same]⟩)

theorem SubShape_refl (ws : List Record) (p : Nat) : SubShape ws p (ws.getD p ⟨[]⟩) :=
  Or.inl rfl

/-- Every row of the working list after the first pass is the original row,
optionally with a single `sub_record` entry that is either `None` or a
reference to a right row with a merge stamp. -/
theorem seqPass1_shape (jk : Option String) (ws : List Record) :
    (seqPass1 jk ws).length = ws.length ∧
    ∀ p, SubShape ws p ((seqPass1 jk ws).getD p ⟨[]⟩) := by
  have hfold := foldl_inv (fun st : List Record × List (Value × Nat) =>
      st.1.length = ws.length ∧ ∀ p, SubShape ws p (st.1.getD p ⟨[]⟩))
    (seqPass1Step jk) (List.range ws.length) (ws, [])
    ⟨rfl, fun p => SubShape_refl ws p⟩
    (by
      intro st x hx hP
      obtain ⟨hlen, hshape⟩ := hP
      rw [List.mem_range] at hx
      unfold seqPass1Step
      dsimp only
      split
      · have hset : ∀ p,
            SubShape ws p
              ((st.1.set x ((st.1.getD x ⟨[]⟩).add "sub_record" Value.none)).getD p ⟨[]⟩) := by
          intro p
          by_cases hp : p = x
          · rw [hp, listGetD_set_self _ _ _ _ (hlen ▸ hx)]
            exact SubShape_add_none ws x _ (hshape x)
          · rw [listGetD_set_ne _ _ _ _ _ hp]
            exact hshape p
        cases hjv : getJoinValue jk ((st.1.getD x ⟨[]⟩).add "sub_record" Value.none) with
        | none => exact ⟨by rw [List.length_set]; exact hlen, hset⟩
        | some jv => exact ⟨by rw [List.length_set]; exact hlen, hset⟩
      · split
        next _ hR =>
          have hxr : rightStampRow (ws.getD x ⟨[]⟩) := by
            obtain ⟨h1, h2⟩ := hR
            constructor
            · rw [← SubShape_get_ne ws x _ "side" (hshape x) (by decide)]; exact h1
            · rw [← SubShape_get_ne ws x _ "has_merge_stamp" (hshape x) (by decide)]; exact h2
          cases hjv : getJoinValue jk (st.1.getD x ⟨[]⟩) with
          | none => exact ⟨hlen, hshape⟩
          | some jv =>
            dsimp only
            cases hget : pendingGet st.2 jv with
            | none => exact ⟨hlen, hshape⟩
            | some li =>
              dsimp only
              refine ⟨by rw [List.length_set]; exact hlen, ?_⟩
              intro p
              by_cases hp : p = li
              · by_cases hpl : li < st.1.length
                · rw [hp, listGetD_set_self _ _ _ _ hpl]
                  exact SubShape_add_ref ws li _ x (hshape li) hxr
                · have hple : st.1.length ≤ li := le_of_not_lt hpl
                  have hlenset :
                      (st.1.set li ((st.1.getD li ⟨[]⟩).add "sub_record"
                        (Value.ref x))).length ≤ p := by
                    rw [List.length_set, hp]; exact hple
                  rw [List.getD_eq_default _ _ hlenset]
                  have hws : ws.getD p ⟨[]⟩ = (⟨[]⟩ : Record) :=
                    List.getD_eq_default _ _ (by rw [hp]; omega)
                  exact Or.inl hws.symm
              · rw [listGetD_set_ne _ _ _ _ _ hp]
                exact hshape p
        next _ _ => exact ⟨hlen, hshape⟩)
  exact hfold

theorem SubShape_set (ws cur : List Record) (hA : cur.length = ws.length)
    (hS : ∀ p, SubShape ws p (cur.getD p ⟨[]⟩)) (li : Nat) (r' : Record)
    (hr' : SubShape ws li r') :
    ∀ p, SubShape ws p ((cur.set li r').getD p ⟨[]⟩) := by
  intro p
  by_cases hp : p = li
  · by_cases hpl : li < cur.length
    · rw [hp, listGetD_set_self _ _ _ _ hpl]
      exact hr'
    · have hple : cur.length ≤ li := le_of_not_lt hpl
      have hlenset : (cur.set li r').length ≤ p := by rw [List.length_set, hp]; exact hple
      rw [List.getD_eq_default _ _ hlenset]
      have hws : ws.getD p ⟨[]⟩ = (⟨[]⟩ : Record) :=
        List.getD_eq_default _ _ (by rw [hp]; omega)
      exact Or.inl hws.symm
  · rw [listGetD_set_ne _ _ _ _ _ hp]
    exact hS p

/-- One step of the first pass of `merge_sequencial` preserves `seqInv`. -/
theorem seqInv_step (ws : List Record) (k : String) (i j r0 : Nat) (v : Value) (m : Nat)
    (st : List Record × List (Value × Nat))
    (hk : ¬ k = "sub_record")
    (hij : i < j) (hjr : j < r0) (hrlen : r0 < ws.length)
    (hiL : (ws.getD i ⟨[]⟩).get "side" = LEFTv)
    (hiS : truthy ((ws.getD i ⟨[]⟩).get "has_merge_stamp") = true)
    (hiJ : getJoinValue (some k) (ws.getD i ⟨[]⟩) = some v)
    (hjL : (ws.getD j ⟨[]⟩).get "side" = LEFTv)
    (hjS : truthy ((ws.getD j ⟨[]⟩).get "has_merge_stamp") = true)
    (hjJ : getJoinValue (some k) (ws.getD j ⟨[]⟩) = some v)
    (hrR : (ws.getD r0 ⟨[]⟩).get "side" = RIGHTv)
    (hrS : truthy ((ws.getD r0 ⟨[]⟩).get "has_merge_stamp") = true)
    (hrJ : getJoinValue (some k) (ws.getD r0 ⟨[]⟩) = some v)
    (hnoleft : ∀ p, p < r0 → j < p →
      ¬ (leftStampRow (ws.getD p ⟨[]⟩) ∧ getJoinValue (some k) (ws.getD p ⟨[]⟩) = some v))
    (hr0min : ∀ p, p < r0 →
      ¬ (rightStampRow (ws.getD p ⟨[]⟩) ∧ getJoinValue (some k) (ws.getD p ⟨[]⟩) = some v))
    (hm : m < ws.length)
    (H : seqInv ws k i j r0 v m st) :
    seqInv ws k i j r0 v (m + 1) (seqPass1Step (some k) st m) := by
  unfold seqInv at H
  obtain ⟨hA, hS, hE1a, hE1b, hE2a, hE2b, hE2c, hD, hF, hR⟩ := H
  have hmlen : m < st.1.length := by rw [hA]; exact hm
  have hrowside : (st.1.getD m ⟨[]⟩).get "side" = (ws.getD m ⟨[]⟩).get "side" :=
    SubShape_get_ne ws m _ "side" (hS m) (by decide)
  have hrowstamp : (st.1.getD m ⟨[]⟩).get "has_merge_stamp"
      = (ws.getD m ⟨[]⟩).get "has_merge_stamp" :=
    SubShape_get_ne ws m _ "has_merge_stamp" (hS m) (by decide)
  have hrowjoin : getJoinValue (some k) (st.1.getD m ⟨[]⟩)
      = getJoinValue (some k) (ws.getD m ⟨[]⟩) :=
    SubShape_join ws m _ k (hS m) hk
  unfold seqPass1Step seqInv
  dsimp only
  by_cases hL : (st.1.getD m ⟨[]⟩).get "side" = LEFTv
      ∧ truthy ((st.1.getD m ⟨[]⟩).get "has_merge_stamp") = true
  · rw [if_pos hL]
    have hmLs : (ws.getD m ⟨[]⟩).get "side" = LEFTv := by rw [← hrowside]; exact hL.1
    have hmstamp : truthy ((ws.getD m ⟨[]⟩).get "has_merge_stamp") = true := by
      rw [← hrowstamp]; exact hL.2
    have hmr0 : ¬ m = r0 := by
      intro h
      rw [h, hrR] at hmLs
      exact absurd hmLs (by decide)
    have hjoin' : getJoinValue (some k) ((st.1.getD m ⟨[]⟩).add "sub_record" Value.none)
        = getJoinValue (some k) (ws.getD m ⟨[]⟩) := by
      rw [getJoinValue_add_ne _ _ _ _ hk]
      exact hrowjoin
    -- facts about the updated list that are shared by the two join-value arms
    have hA' : (st.1.set m ((st.1.getD m ⟨[]⟩).add "sub_record" Value.none)).length
        = ws.length := by rw [List.length_set]; exact hA
    have hS' : ∀ p, SubShape ws p
        ((st.1.set m ((st.1.getD m ⟨[]⟩).add "sub_record" Value.none)).getD p ⟨[]⟩) :=
      SubShape_set ws st.1 hA hS m _ (SubShape_add_none ws m _ (hS m))
    have hE1a' : m + 1 ≤ i →
        (st.1.set m ((st.1.getD m ⟨[]⟩).add "sub_record" Value.none)).getD i ⟨[]⟩
          = ws.getD i ⟨[]⟩ := by
      intro h
      rw [listGetD_set_ne _ _ _ _ _ (by omega : ¬ i = m)]
      exact hE1a (by omega)
    have hE1b' : i < m + 1 →
        (st.1.set m ((st.1.getD m ⟨[]⟩).add "sub_record" Value.none)).getD i ⟨[]⟩
          = (ws.getD i ⟨[]⟩).add "sub_record" Value.none := by
      intro h
      by_cases him : i = m
      · have hws := hE1a (by omega)
        rw [him] at hws ⊢
        rw [listGetD_set_self _ _ _ _ hmlen, hws]
      · rw [listGetD_set_ne _ _ _ _ _ him]
        exact hE1b (by omega)
    have hE2a' : m + 1 ≤ j →
        (st.1.set m ((st.1.getD m ⟨[]⟩).add "sub_record" Value.none)).getD j ⟨[]⟩
          = ws.getD j ⟨[]⟩ := by
      intro h
      rw [listGetD_set_ne _ _ _ _ _ (by omega : ¬ j = m)]
      exact hE2a (by omega)
    have hE2b' : j < m + 1 → m + 1 ≤ r0 →
        (st.1.set m ((st.1.getD m ⟨[]⟩).add "sub_record" Value.none)).getD j ⟨[]⟩
          = (ws.getD j ⟨[]⟩).add "sub_record" Value.none := by
      intro h1 h2
      by_cases hjm : j = m
      · have hws := hE2a (by omega)
        rw [hjm] at hws ⊢
        rw [listGetD_set_self _ _ _ _ hmlen, hws]
      · rw [listGetD_set_ne _ _ _ _ _ hjm]
        exact hE2b (by omega) (by omega)
    have hE2c' : r0 < m + 1 →
        (st.1.set m ((st.1.getD m ⟨[]⟩).add "sub_record" Value.none)).getD j ⟨[]⟩
          = (ws.getD j ⟨[]⟩).add "sub_record" (Value.ref r0) := by
      intro h
      rw [listGetD_set_ne _ _ _ _ _ (by omega : ¬ j = m)]
      exact hE2c (by omega)
    have hR' : ∀ p,
        (((st.1.set m ((st.1.getD m ⟨[]⟩).add "sub_record" Value.none)).getD p ⟨[]⟩).get
          "sub_record") = Value.ref r0 → p = j ∧ r0 < m + 1 := by
      intro p hp
      by_cases hpm : p = m
      · exfalso
        rw [hpm, listGetD_set_self _ _ _ _ hmlen, Record.get_add_self] at hp
        exact Value.noConfusion hp
      · rw [listGetD_set_ne _ _ _ _ _ hpm] at hp
        obtain ⟨h1, h2⟩ := hR p hp
        exact ⟨h1, by omega⟩
    cases hjv : getJoinValue (some k) ((st.1.getD m ⟨[]⟩).add "sub_record" Value.none) with
    | none =>
      dsimp only
      have hjvm : getJoinValue (some k) (ws.getD m ⟨[]⟩) = Option.none :=
        hjoin'.symm.trans hjv
      refine ⟨hA', hS', hE1a', hE1b', hE2a', hE2b', hE2c', ?_, ?_, hR'⟩
      · intro h1 h2
        by_cases hjm : j = m
        · exfalso
          rw [← hjm, hjJ] at hjvm
          exact Option.noConfusion hjvm
        · exact hD (by omega) (by omega)
      · intro e he
        have hFe := hF e he
        constructor
        · intro hei
          obtain ⟨h1, h2⟩ := hFe.1 hei
          refine ⟨h1, ?_⟩
          by_cases hjm : j = m
          · exfalso
            rw [← hjm, hjJ] at hjvm
            exact Option.noConfusion hjvm
          · omega
        · intro hej
          obtain ⟨h1, h2⟩ := hFe.2 hej
          exact ⟨h1, by omega⟩
    | some jv =>
      dsimp only
      have hjvm : getJoinValue (some k) (ws.getD m ⟨[]⟩) = some jv :=
        hjoin'.symm.trans hjv
      refine ⟨hA', hS', hE1a', hE1b', hE2a', hE2b', hE2c', ?_, ?_, hR'⟩
      · intro h1 h2
        by_cases hjm : j = m
        · have h' : some v = some jv := by rw [← hjJ, hjm]; exact hjvm
          have hjv_v : jv = v := (Option.some.inj h').symm
          rw [hjv_v, hjm]
          exact pendingGet_pendingSet_self _ _ _
        · have hjm' : j < m := by omega
          have hmlt : m < r0 := by omega
          have hlsm : leftStampRow (ws.getD m ⟨[]⟩) := ⟨hmLs, hmstamp⟩
          have hnv : ¬ jv = v := by
            intro hh
            exact hnoleft m hmlt hjm' ⟨hlsm, by rw [← hh]; exact hjvm⟩
          rw [pendingGet_pendingSet_ne _ _ _ _ (fun hh => hnv hh.symm)]
          exact hD hjm' (by omega)
      · intro e he
        rcases pendingSet_mem' _ _ _ _ he with ⟨hel, hne⟩ | heq
        · have hFe := hF e hel
          constructor
          · intro hei
            obtain ⟨h1, h2⟩ := hFe.1 hei
            refine ⟨h1, ?_⟩
            by_cases hjm : j = m
            · exfalso
              have h' : some v = some jv := by rw [← hjJ, hjm]; exact hjvm
              exact hne (h1.trans (Option.some.inj h'))
            · omega
          · intro hej
            obtain ⟨h1, h2⟩ := hFe.2 hej
            exact ⟨h1, by omega⟩
        · constructor
          · intro hei
            rw [heq] at hei
            have hei' : m = i := hei
            refine ⟨?_, by omega⟩
            rw [heq]
            have h' : some jv = some v := by rw [← hjvm, hei']; exact hiJ
            exact Option.some.inj h'
          · intro hej
            rw [heq] at hej
            have hej' : m = j := hej
            refine ⟨?_, by omega⟩
            rw [heq]
            have h' : some jv = some v := by rw [← hjvm, hej']; exact hjJ
            exact Option.some.inj h'
  · rw [if_neg hL]
    by_cases hRb : (st.1.getD m ⟨[]⟩).get "side" = RIGHTv
        ∧ truthy ((st.1.getD m ⟨[]⟩).get "has_merge_stamp") = true
    · rw [if_pos hRb]
      have hmRs : (ws.getD m ⟨[]⟩).get "side" = RIGHTv := by rw [← hrowside]; exact hRb.1
      have hmRst : truthy ((ws.getD m ⟨[]⟩).get "has_merge_stamp") = true := by
        rw [← hrowstamp]; exact hRb.2
      have hrsm : rightStampRow (ws.getD m ⟨[]⟩) := ⟨hmRs, hmRst⟩
      have hmi : ¬ m = i := by
        intro h
        rw [h, hiL] at hmRs
        exact absurd hmRs (by decide)
      have hmj : ¬ m = j := by
        intro h
        rw [h, hjL] at hmRs
        exact absurd hmRs (by decide)
      cases hjv : getJoinValue (some k) (st.1.getD m ⟨[]⟩) with
      | none =>
        dsimp only
        have hjvm : getJoinValue (some k) (ws.getD m ⟨[]⟩) = Option.none :=
          hrowjoin.symm.trans hjv
        have hmr0 : ¬ m = r0 := by
          intro h
          rw [h, hrJ] at hjvm
          exact Option.noConfusion hjvm
        refine ⟨hA, hS, fun h => hE1a (by omega), fun h => hE1b (by omega),
          fun h => hE2a (by omega), fun h1 h2 => hE2b (by omega) (by omega),
          fun h => hE2c (by omega), fun h1 h2 => hD (by omega) (by omega), ?_, ?_⟩
        · intro e he
          have hFe := hF e he
          refine ⟨fun hei => ⟨(hFe.1 hei).1, ?_⟩, fun hej => ⟨(hFe.2 hej).1, ?_⟩⟩
          · have := (hFe.1 hei).2; omega
          · have := (hFe.2 hej).2; omega
        · intro p hp
          obtain ⟨h1, h2⟩ := hR p hp
          exact ⟨h1, by omega⟩
      | some jv =>
        dsimp only
        have hjvm : getJoinValue (some k) (ws.getD m ⟨[]⟩) = some jv :=
          hrowjoin.symm.trans hjv
        cases hpg : pendingGet st.2 jv with
        | none =>
          dsimp only
          have hmr0 : ¬ m = r0 := by
            intro h
            have h' : some jv = some v := by rw [← hjvm, h]; exact hrJ
            have hjvv : jv = v := Option.some.inj h'
            have hDj := hD (by omega) (by omega)
            rw [hjvv, hDj] at hpg
            exact Option.noConfusion hpg
          refine ⟨hA, hS, fun h => hE1a (by omega), fun h => hE1b (by omega),
            fun h => hE2a (by omega), fun h1 h2 => hE2b (by omega) (by omega),
            fun h => hE2c (by omega), fun h1 h2 => hD (by omega) (by omega), ?_, ?_⟩
          · intro e he
            have hFe := hF e he
            refine ⟨fun hei => ⟨(hFe.1 hei).1, ?_⟩, fun hej => ⟨(hFe.2 hej).1, ?_⟩⟩
            · have := (hFe.1 hei).2; omega
            · have := (hFe.2 hej).2; omega
          · intro p hp
            obtain ⟨h1, h2⟩ := hR p hp
            exact ⟨h1, by omega⟩
        | some li =>
          dsimp only
          have hmem := pendingGet_mem' _ _ _ hpg
          have hFli := hF _ hmem
          rcases Nat.lt_trichotomy m r0 with hmlt | hmeq | hmgt
          · -- the right row at `m` comes before `r0`, so its join value is not `v`
            have hnv : ¬ jv = v := by
              intro hh
              rw [hh] at hjvm
              exact hr0min m hmlt ⟨hrsm, hjvm⟩
            have hli_i : ¬ li = i := by
              intro hh
              exact hnv ((hFli.1 hh).1)
            have hli_j : ¬ li = j := by
              intro hh
              exact hnv ((hFli.2 hh).1)
            refine ⟨by rw [List.length_set]; exact hA,
              SubShape_set ws st.1 hA hS li _ (SubShape_add_ref ws li _ m (hS li) hrsm),
              ?_, ?_, ?_, ?_, ?_, ?_, ?_, ?_⟩
            · intro h
              rw [listGetD_set_ne _ _ _ _ _ (fun hh => hli_i hh.symm)]
              exact hE1a (by omega)
            · intro h
              rw [listGetD_set_ne _ _ _ _ _ (fun hh => hli_i hh.symm)]
              exact hE1b (by omega)
            · intro h
              rw [listGetD_set_ne _ _ _ _ _ (fun hh => hli_j hh.symm)]
              exact hE2a (by omega)
            · intro h1 h2
              rw [listGetD_set_ne _ _ _ _ _ (fun hh => hli_j hh.symm)]
              exact hE2b (by omega) (by omega)
            · intro h
              exact absurd h (by omega)
            · intro h1 h2
              rw [pendingGet_pendingErase_ne _ _ _ (fun hh => hnv hh.symm)]
              exact hD (by omega) (by omega)
            · intro e he
              have hel : e ∈ st.2 := List.mem_of_mem_filter he
              have hFe := hF e hel
              refine ⟨fun hei => ⟨(hFe.1 hei).1, ?_⟩, fun hej => ⟨(hFe.2 hej).1, ?_⟩⟩
              · have := (hFe.1 hei).2; omega
              · have := (hFe.2 hej).2; omega
            · intro p hp
              by_cases hpm : p = li
              · by_cases hpl : li < st.1.length
                · rw [hpm, listGetD_set_self _ _ _ _ hpl, Record.get_add_self] at hp
                  injection hp with hh
                  exact absurd hh (by omega)
                · have hple : st.1.length ≤ li := le_of_not_lt hpl
                  rw [hpm, List.getD_eq_default _ _
                    (by rw [List.length_set]; exact hple)] at hp
                  rw [show (⟨[]⟩ : Record).get "sub_record" = Value.none from rfl] at hp
                  exact Value.noConfusion hp
              · rw [listGetD_set_ne _ _ _ _ _ hpm] at hp
                obtain ⟨h1, h2⟩ := hR p hp
                exact ⟨h1, by omega⟩
          · -- `m = r0`: the pending entry is `(v, j)` and row `j` receives the reference
            have hjvv : jv = v := by
              have h' : some jv = some v := by rw [← hjvm, hmeq]; exact hrJ
              exact Option.some.inj h'
            have hDj := hD (by omega) (by omega)
            have hlij : li = j := by
              rw [hjvv, hDj] at hpg
              exact (Option.some.inj hpg).symm
            have hcurj : st.1.getD j ⟨[]⟩ = (ws.getD j ⟨[]⟩).add "sub_record" Value.none :=
              hE2b (by omega) (by omega)
            have hjlen : j < st.1.length := by rw [hA]; omega
            refine ⟨by rw [List.length_set]; exact hA, ?_, ?_, ?_, ?_, ?_, ?_, ?_, ?_, ?_⟩
            · rw [hlij]
              exact SubShape_set ws st.1 hA hS j _ (SubShape_add_ref ws j _ m (hS j) hrsm)
            · intro h
              exact absurd h (by omega)
            · intro h
              rw [hlij, listGetD_set_ne _ _ _ _ _ (by omega : ¬ i = j)]
              exact hE1b (by omega)
            · intro h
              exact absurd h (by omega)
            · intro h1 h2
              exact absurd h2 (by omega)
            · intro h
              rw [hlij, listGetD_set_self _ _ _ _ hjlen, hcurj, Record.add_add_same, ← hmeq]
            · intro h1 h2
              exact absurd h2 (by omega)
            · intro e he
              have hel : e ∈ st.2 := List.mem_of_mem_filter he
              have hne' : ¬ e.1 = jv := by
                have h0 := List.of_mem_filter he
                simp at h0
                exact h0
              refine ⟨fun hei => ?_, fun hej => ?_⟩
              · exfalso
                exact hne' (((hF e hel).1 hei).1.trans hjvv.symm)
              · exfalso
                exact hne' (((hF e hel).2 hej).1.trans hjvv.symm)
            · intro p hp
              by_cases hpj : p = li
              · exact ⟨by rw [hpj, hlij], by omega⟩
              · rw [listGetD_set_ne _ _ _ _ _ hpj] at hp
                obtain ⟨h1, h2⟩ := hR p hp
                exact ⟨h1, by omega⟩
          · -- `r0 < m`: the pending map no longer holds entries for rows `i` or `j`
            have hli_i : ¬ li = i := by
              intro hh
              have := (hFli.1 hh).2
              omega
            have hli_j : ¬ li = j := by
              intro hh
              have := (hFli.2 hh).2
              omega
            refine ⟨by rw [List.length_set]; exact hA,
              SubShape_set ws st.1 hA hS li _ (SubShape_add_ref ws li _ m (hS li) hrsm),
              ?_, ?_, ?_, ?_, ?_, ?_, ?_, ?_⟩
            · intro h
              exact absurd h (by omega)
            · intro h
              rw [listGetD_set_ne _ _ _ _ _ (fun hh => hli_i hh.symm)]
              exact hE1b (by omega)
            · intro h
              exact absurd h (by omega)
            · intro h1 h2
              exact absurd h2 (by omega)
            · intro h
              rw [listGetD_set_ne _ _ _ _ _ (fun hh => hli_j hh.symm)]
              exact hE2c (by omega)
            · intro h1 h2
              exact absurd h2 (by omega)
            · intro e he
              have hel : e ∈ st.2 := List.mem_of_mem_filter he
              refine ⟨fun hei => ?_, fun hej => ?_⟩
              · exfalso
                have h2 := ((hF e hel).1 hei).2
                omega
              · exfalso
                have h2 := ((hF e hel).2 hej).2
                omega
            · intro p hp
              by_cases hpm : p = li
              · by_cases hpl : li < st.1.length
                · rw [hpm, listGetD_set_self _ _ _ _ hpl, Record.get_add_self] at hp
                  injection hp with hh
                  exact absurd hh (by omega)
                · have hple : st.1.length ≤ li := le_of_not_lt hpl
                  rw [hpm, List.getD_eq_default _ _
                    (by rw [List.length_set]; exact hple)] at hp
                  rw [show (⟨[]⟩ : Record).get "sub_record" = Value.none from rfl] at hp
                  exact Value.noConfusion hp
              · rw [listGetD_set_ne _ _ _ _ _ hpm] at hp
                obtain ⟨h1, h2⟩ := hR p hp
                exact ⟨h1, by omega⟩
    · rw [if_neg hRb]
      have hmi : ¬ m = i := fun h =>
        hL ⟨by rw [hrowside, h]; exact hiL, by rw [hrowstamp, h]; exact hiS⟩
      have hmj : ¬ m = j := fun h =>
        hL ⟨by rw [hrowside, h]; exact hjL, by rw [hrowstamp, h]; exact hjS⟩
      have hmr0 : ¬ m = r0 := fun h =>
        hRb ⟨by rw [hrowside, h]; exact hrR, by rw [hrowstamp, h]; exact hrS⟩
      refine ⟨hA, hS, fun h => hE1a (by omega), fun h => hE1b (by omega),
        fun h => hE2a (by omega), fun h1 h2 => hE2b (by omega) (by omega),
        fun h => hE2c (by omega), fun h1 h2 => hD (by omega) (by omega), ?_, ?_⟩
      · intro e he
        have hFe := hF e he
        refine ⟨fun hei => ⟨(hFe.1 hei).1, ?_⟩, fun hej => ⟨(hFe.2 hej).1, ?_⟩⟩
        · have := (hFe.1 hei).2; omega
        · have := (hFe.2 hej).2; omega
      · intro p hp
        obtain ⟨h1, h2⟩ := hR p hp
        exact ⟨h1, by omega⟩

/-- Through the first pass of `merge_sequencial`, of two left rows `i < j`
with the same join value that both precede the first matching right row `r0`,
the earlier one keeps `sub_record = None` (its pending entry was overwritten)
and the later one is the unique row bound to `r0`. -/
theorem seqPass1_pending_overwrite (ws : List Record) (k : String) (i j r0 : Nat) (v : Value)
    (hk : ¬ k = "sub_record")
    (hij : i < j) (hjr : j < r0) (hrlen : r0 < ws.length)
    (hclean : ∀ p, p < ws.length → (ws.getD p ⟨[]⟩).hasKey "sub_record" = false)
    (hiL : (ws.getD i ⟨[]⟩).get "side" = LEFTv)
    (hiS : truthy ((ws.getD i ⟨[]⟩).get "has_merge_stamp") = true)
    (hiJ : getJoinValue (some k) (ws.getD i ⟨[]⟩) = some v)
    (hjL : (ws.getD j ⟨[]⟩).get "side" = LEFTv)
    (hjS : truthy ((ws.getD j ⟨[]⟩).get "has_merge_stamp") = true)
    (hjJ : getJoinValue (some k) (ws.getD j ⟨[]⟩) = some v)
    (hrR : (ws.getD r0 ⟨[]⟩).get "side" = RIGHTv)
    (hrS : truthy ((ws.getD r0 ⟨[]⟩).get "has_merge_stamp") = true)
    (hrJ : getJoinValue (some k) (ws.getD r0 ⟨[]⟩) = some v)
    (hnoleft : ∀ p, p < r0 → j < p →
      ¬ (leftStampRow (ws.getD p ⟨[]⟩) ∧ getJoinValue (some k) (ws.getD p ⟨[]⟩) = some v))
    (hr0min : ∀ p, p < r0 →
      ¬ (rightStampRow (ws.getD p ⟨[]⟩) ∧ getJoinValue (some k) (ws.getD p ⟨[]⟩) = some v)) :
    (seqPass1 (some k) ws).getD i ⟨[]⟩ = (ws.getD i ⟨[]⟩).add "sub_record" Value.none ∧
    (seqPass1 (some k) ws).getD j ⟨[]⟩ = (ws.getD j ⟨[]⟩).add "sub_record" (Value.ref r0) ∧
    (∀ p, ((seqPass1 (some k) ws).getD p ⟨[]⟩).get "sub_record" = Value.ref r0 → p = j) := by
  have hclean' : ∀ p, (ws.getD p ⟨[]⟩).hasKey "sub_record" = false := by
    intro p
    by_cases hp : p < ws.length
    · exact hclean p hp
    · rw [List.getD_eq_default _ _ (le_of_not_lt hp)]
      rfl
  have main : ∀ n, n ≤ ws.length →
      seqInv ws k i j r0 v n ((List.range n).foldl (seqPass1Step (some k)) (ws, [])) := by
    intro n
    induction n with
    | zero =>
      intro _
      rw [List.range_zero]
      simp only [List.foldl_nil]
      unfold seqInv
      refine ⟨rfl, fun p => SubShape_refl ws p, fun _ => rfl, ?_, fun _ => rfl, ?_, ?_, ?_,
        ?_, ?_⟩
      · intro h; exact absurd h (by omega)
      · intro h _; exact absurd h (by omega)
      · intro h; exact absurd h (by omega)
      · intro h _; exact absurd h (by omega)
      · intro e he; exact absurd he (List.not_mem_nil e)
      · intro p hp
        exfalso
        rw [Record.get_of_hasKey_false _ _ (hclean' p)] at hp
        exact Value.noConfusion hp
    | succ m ih =>
      intro hle
      have hm : m < ws.length := by omega
      have H := ih (by omega)
      rw [List.range_succ, List.foldl_append, List.foldl_cons, List.foldl_nil]
      exact seqInv_step ws k i j r0 v m _ hk hij hjr hrlen hiL hiS hiJ hjL hjS hjJ
        hrR hrS hrJ hnoleft hr0min hm H
  have hfin := main ws.length (le_refl _)
  unfold seqInv at hfin
  obtain ⟨hA, hS, hE1a, hE1b, hE2a, hE2b, hE2c, hD, hF, hR⟩ := hfin
  refine ⟨?_, ?_, ?_⟩
  · unfold seqPass1
    exact hE1b (by omega)
  · unfold seqPass1
    exact hE2c (by omega)
  · intro p hp
    unfold seqPass1 at hp
    exact (hR p hp).1

/-- A valid left row whose `sub_record` is `None` is emitted alone exactly
when `merge_left` holds (lines 1004-1012). -/
theorem seqPass2Step_left_none (ws2 : List Record) (ml mr : Bool)
    (st : List Emit × List Nat) (m : Nat) (hmem : ¬ m ∈ st.2)
    (hside : (ws2.getD m ⟨[]⟩).get "side" = LEFTv)
    (hstamp : truthy ((ws2.getD m ⟨[]⟩).get "has_merge_stamp") = true)
    (hvalid : truthy ((ws2.getD m ⟨[]⟩).get "has_valid_join_key") = true)
    (hsub : (ws2.getD m ⟨[]⟩).get "sub_record" = Value.none) :
    seqPass2Step ws2 ml mr st m =
      if ml = true then (st.1 ++ [Emit.single m], st.2 ++ [m]) else st := by
  unfold seqPass2Step
  dsimp only
  rw [if_neg hmem]
  have hinv : ¬ (¬ truthy ((ws2.getD m ⟨[]⟩).get "has_merge_stamp") = true
      ∨ ¬ truthy ((ws2.getD m ⟨[]⟩).get "has_valid_join_key") = true) := by
    intro h
    rcases h with h | h
    · exact h hstamp
    · exact h hvalid
  rw [if_neg hinv]
  have hnR : ¬ (ws2.getD m ⟨[]⟩).get "side" = RIGHTv := by rw [hside]; decide
  rw [if_neg hnR, hsub]

/-- A valid left row bound to a not-yet-recorded right row `q` is emitted as
the pair `(m, q)` (lines 1013-1020). -/
theorem seqPass2Step_left_ref (ws2 : List Record) (ml mr : Bool)
    (st : List Emit × List Nat) (m q : Nat) (hmem : ¬ m ∈ st.2)
    (hside : (ws2.getD m ⟨[]⟩).get "side" = LEFTv)
    (hstamp : truthy ((ws2.getD m ⟨[]⟩).get "has_merge_stamp") = true)
    (hvalid : truthy ((ws2.getD m ⟨[]⟩).get "has_valid_join_key") = true)
    (hsub : (ws2.getD m ⟨[]⟩).get "sub_record" = Value.ref q)
    (hq : ¬ q ∈ st.2) :
    seqPass2Step ws2 ml mr st m = (st.1 ++ [Emit.pair m q], st.2 ++ [m, q]) := by
  unfold seqPass2Step
  dsimp only
  rw [if_neg hmem]
  have hinv : ¬ (¬ truthy ((ws2.getD m ⟨[]⟩).get "has_merge_stamp") = true
      ∨ ¬ truthy ((ws2.getD m ⟨[]⟩).get "has_valid_join_key") = true) := by
    intro h
    rcases h with h | h
    · exact h hstamp
    · exact h hvalid
  rw [if_neg hinv]
  have hnR : ¬ (ws2.getD m ⟨[]⟩).get "side" = RIGHTv := by rw [hside]; decide
  rw [if_neg hnR, hsub]
  dsimp only
  rw [if_neg hq]

/-- Any step of the second pass either leaves the state unchanged, appends one
single emission for the current position, or appends one pair emission bound
through the current row's `sub_record`. -/
theorem seqPass2Step_shape (ws2 : List Record) (ml mr : Bool)
    (st : List Emit × List Nat) (m : Nat) :
    seqPass2Step ws2 ml mr st m = st ∨
    (¬ m ∈ st.2 ∧ seqPass2Step ws2 ml mr st m = (st.1 ++ [Emit.single m], st.2 ++ [m])) ∨
    (∃ q, ¬ m ∈ st.2 ∧ (ws2.getD m ⟨[]⟩).get "sub_record" = Value.ref q ∧ ¬ q ∈ st.2 ∧
      seqPass2Step ws2 ml mr st m = (st.1 ++ [Emit.pair m q], st.2 ++ [m, q])) := by
  unfold seqPass2Step
  dsimp only
  by_cases hmem : m ∈ st.2
  · rw [if_pos hmem]
    exact Or.inl rfl
  · rw [if_neg hmem]
    by_cases hinv : ¬ truthy ((ws2.getD m ⟨[]⟩).get "has_merge_stamp") = true
        ∨ ¬ truthy ((ws2.getD m ⟨[]⟩).get "has_valid_join_key") = true
    · rw [if_pos hinv]
      by_cases h1 : (ws2.getD m ⟨[]⟩).get "side" = RIGHTv ∧ mr = true
      · rw [if_pos h1]
        exact Or.inr (Or.inl ⟨hmem, rfl⟩)
      · rw [if_neg h1]
        by_cases h2 : (ws2.getD m ⟨[]⟩).get "side" = LEFTv ∧ ml = true
        · rw [if_pos h2]
          exact Or.inr (Or.inl ⟨hmem, rfl⟩)
        · rw [if_neg h2]
          exact Or.inl rfl
    · rw [if_neg hinv]
      by_cases h1 : (ws2.getD m ⟨[]⟩).get "side" = RIGHTv
      · rw [if_pos h1]
        by_cases h2 : mr = true
        · rw [if_pos h2]
          exact Or.inr (Or.inl ⟨hmem, rfl⟩)
        · rw [if_neg h2]
          exact Or.inl rfl
      · rw [if_neg h1]
        cases hsub : (ws2.getD m ⟨[]⟩).get "sub_record" with
        | ref q =>
          dsimp only
          by_cases hq : q ∈ st.2
          · rw [if_pos hq]
            by_cases h2 : ml = true
            · rw [if_pos h2]
              exact Or.inr (Or.inl ⟨hmem, rfl⟩)
            · rw [if_neg h2]
              exact Or.inl rfl
          · rw [if_neg hq]
            exact Or.inr (Or.inr ⟨q, hmem, rfl, hq, rfl⟩)
        | i a =>
          dsimp only
          by_cases h2 : ml = true
          · rw [if_pos h2]
            exact Or.inr (Or.inl ⟨hmem, rfl⟩)
          · rw [if_neg h2]
            exact Or.inl rfl
        | b a =>
          dsimp only
          by_cases h2 : ml = true
          · rw [if_pos h2]
            exact Or.inr (Or.inl ⟨hmem, rfl⟩)
          · rw [if_neg h2]
            exact Or.inl rfl
        | none =>
          dsimp only
          by_cases h2 : ml = true
          · rw [if_pos h2]
            exact Or.inr (Or.inl ⟨hmem, rfl⟩)
          · rw [if_neg h2]
            exact Or.inl rfl
        | setref a =>
          dsimp only
          by_cases h2 : ml = true
          · rw [if_pos h2]
            exact Or.inr (Or.inl ⟨hmem, rfl⟩)
          · rw [if_neg h2]
            exact Or.inl rfl

/-- One step of the second pass preserves `seqInv2` under the row facts
established by the first pass. -/
theorem seqInv2_step (ws ws2 : List Record) (i j r0 : Nat) (ml mr : Bool) (m : Nat)
    (st : List Emit × List Nat)
    (hij : i < j) (hjr : j < r0)
    (hcleanws : ∀ p, (ws.getD p ⟨[]⟩).hasKey "sub_record" = false)
    (hshape : ∀ p, SubShape ws p (ws2.getD p ⟨[]⟩))
    (hrefr0 : ∀ p, (ws2.getD p ⟨[]⟩).get "sub_record" = Value.ref r0 → p = j)
    (hi2 : ws2.getD i ⟨[]⟩ = (ws.getD i ⟨[]⟩).add "sub_record" Value.none)
    (hj2 : ws2.getD j ⟨[]⟩ = (ws.getD j ⟨[]⟩).add "sub_record" (Value.ref r0))
    (hiL : (ws.getD i ⟨[]⟩).get "side" = LEFTv)
    (hiS : truthy ((ws.getD i ⟨[]⟩).get "has_merge_stamp") = true)
    (hiV : truthy ((ws.getD i ⟨[]⟩).get "has_valid_join_key") = true)
    (hjL : (ws.getD j ⟨[]⟩).get "side" = LEFTv)
    (hjS : truthy ((ws.getD j ⟨[]⟩).get "has_merge_stamp") = true)
    (hjV : truthy ((ws.getD j ⟨[]⟩).get "has_valid_join_key") = true)
    (H : seqInv2 ws2 i j r0 ml m st) :
    seqInv2 ws2 i j r0 ml (m + 1) (seqPass2Step ws2 ml mr st m) := by
  unfold seqInv2 at H ⊢
  obtain ⟨HP1, HP2, HQ, HG1, HG3⟩ := H
  have hi2side : (ws2.getD i ⟨[]⟩).get "side" = LEFTv := by
    rw [hi2, Record.get_add_ne _ _ _ _ (by decide)]; exact hiL
  have hi2stamp : truthy ((ws2.getD i ⟨[]⟩).get "has_merge_stamp") = true := by
    rw [hi2, Record.get_add_ne _ _ _ _ (by decide)]; exact hiS
  have hi2valid : truthy ((ws2.getD i ⟨[]⟩).get "has_valid_join_key") = true := by
    rw [hi2, Record.get_add_ne _ _ _ _ (by decide)]; exact hiV
  have hi2sub : (ws2.getD i ⟨[]⟩).get "sub_record" = Value.none := by
    rw [hi2, Record.get_add_self]
  have hj2side : (ws2.getD j ⟨[]⟩).get "side" = LEFTv := by
    rw [hj2, Record.get_add_ne _ _ _ _ (by decide)]; exact hjL
  have hj2stamp : truthy ((ws2.getD j ⟨[]⟩).get "has_merge_stamp") = true := by
    rw [hj2, Record.get_add_ne _ _ _ _ (by decide)]; exact hjS
  have hj2valid : truthy ((ws2.getD j ⟨[]⟩).get "has_valid_join_key") = true := by
    rw [hj2, Record.get_add_ne _ _ _ _ (by decide)]; exact hjV
  have hj2sub : (ws2.getD j ⟨[]⟩).get "sub_record" = Value.ref r0 := by
    rw [hj2, Record.get_add_self]
  have hnp_i : ∀ q, Emit.pair q i ∈ st.1 → False := by
    intro q hq
    have h1 := (HP1 q i hq).1
    rcases hshape q with hcase | hcase | ⟨q', hq', hcase⟩
    · rw [hcase, Record.get_of_hasKey_false _ _ (hcleanws q)] at h1
      exact Value.noConfusion h1
    · rw [hcase, Record.get_add_self] at h1
      exact Value.noConfusion h1
    · rw [hcase, Record.get_add_self] at h1
      injection h1 with hh
      obtain ⟨hs, _⟩ := hq'
      rw [hh, hiL] at hs
      exact absurd hs (by decide)
  have hnp_j : ∀ q, Emit.pair q j ∈ st.1 → False := by
    intro q hq
    have h1 := (HP1 q j hq).1
    rcases hshape q with hcase | hcase | ⟨q', hq', hcase⟩
    · rw [hcase, Record.get_of_hasKey_false _ _ (hcleanws q)] at h1
      exact Value.noConfusion h1
    · rw [hcase, Record.get_add_self] at h1
      exact Value.noConfusion h1
    · rw [hcase, Record.get_add_self] at h1
      injection h1 with hh
      obtain ⟨hs, _⟩ := hq'
      rw [hh, hjL] at hs
      exact absurd hs (by decide)
  have hi_add_lt : i ∈ st.2 → i < m := by
    intro hadd
    rcases HQ i hadd with h | ⟨q, hq⟩
    · exact h
    · exact absurd hq (fun hh => hnp_i q hh)
  have hj_add_lt : j ∈ st.2 → j < m := by
    intro hadd
    rcases HQ j hadd with h | ⟨q, hq⟩
    · exact h
    · exact absurd hq (fun hh => hnp_j q hh)
  have hr0_add : r0 ∈ st.2 → j < m := by
    intro hadd
    rcases HQ r0 hadd with h | ⟨q, hq⟩
    · omega
    · have h1 := (HP1 q r0 hq).1
      have h2 := (HP1 q r0 hq).2
      have hqj := hrefr0 q h1
      omega
  by_cases hmi : m = i
  · subst hmi
    have hi_not : ¬ m ∈ st.2 := fun h => absurd (hi_add_lt h) (by omega)
    rw [seqPass2Step_left_none ws2 ml mr st m hi_not hi2side hi2stamp hi2valid hi2sub]
    by_cases hml : ml = true
    · rw [if_pos hml]
      refine ⟨?_, ?_, ?_, ?_, ?_⟩
      · intro p q hpq
        rcases List.mem_append.mp hpq with h | h
        · exact ⟨(HP1 p q h).1, by have := (HP1 p q h).2; omega⟩
        · exact Emit.noConfusion (List.mem_singleton.mp h)
      · intro p hp
        rcases List.mem_append.mp hp with h | h
        · have := HP2 p h; omega
        · injection List.mem_singleton.mp h with hh; omega
      · intro p hp
        rcases List.mem_append.mp hp with h | h
        · rcases HQ p h with h2 | ⟨q, h2⟩
          · exact Or.inl (by omega)
          · exact Or.inr ⟨q, List.mem_append_left _ h2⟩
        · rcases List.mem_singleton.mp h with rfl
          exact Or.inl (by omega)
      · intro h
        exact absurd h (by omega)
      · intro h
        exact ⟨fun _ => hml, fun _ => List.mem_append_right _ (List.mem_singleton.mpr rfl)⟩
    · rw [if_neg hml]
      refine ⟨?_, ?_, ?_, ?_, ?_⟩
      · intro p q hpq
        exact ⟨(HP1 p q hpq).1, by have := (HP1 p q hpq).2; omega⟩
      · intro p hp
        have := HP2 p hp; omega
      · intro p hp
        exact (HQ p hp).imp (fun hh => by omega) id
      · intro h
        exact absurd h (by omega)
      · intro h
        exact ⟨fun hs => absurd (HP2 _ hs) (by omega), fun hmlt => absurd hmlt hml⟩
  · by_cases hmj : m = j
    · subst hmj
      have hj_not : ¬ m ∈ st.2 := fun h => absurd (hj_add_lt h) (by omega)
      have hr0_not : ¬ r0 ∈ st.2 := fun h => absurd (hr0_add h) (by omega)
      rw [seqPass2Step_left_ref ws2 ml mr st m r0 hj_not hj2side hj2stamp hj2valid
        hj2sub hr0_not]
      refine ⟨?_, ?_, ?_, ?_, ?_⟩
      · intro p q hpq
        rcases List.mem_append.mp hpq with h | h
        · exact ⟨(HP1 p q h).1, by have := (HP1 p q h).2; omega⟩
        · injection List.mem_singleton.mp h with h1 h2
          rw [h1, h2]
          exact ⟨hj2sub, by omega⟩
      · intro p hp
        rcases List.mem_append.mp hp with h | h
        · have := HP2 p h; omega
        · exact Emit.noConfusion (List.mem_singleton.mp h)
      · intro p hp
        rcases List.mem_append.mp hp with h | h
        · rcases HQ p h with h2 | ⟨q, h2⟩
          · exact Or.inl (by omega)
          · exact Or.inr ⟨q, List.mem_append_left _ h2⟩
        · rcases List.mem_cons.mp h with rfl | h2
          · exact Or.inl (by omega)
          · rcases List.mem_singleton.mp h2 with rfl
            exact Or.inr ⟨m, List.mem_append_right _ (List.mem_singleton.mpr rfl)⟩
      · intro _
        exact List.mem_append_right _ (List.mem_singleton.mpr rfl)
      · intro _
        have hold := HG3 (by omega)
        constructor
        · intro hs
          rcases List.mem_append.mp hs with h | h
          · exact hold.mp h
          · exact Emit.noConfusion (List.mem_singleton.mp h)
        · intro hmlt
          exact List.mem_append_left _ (hold.mpr hmlt)
    · rcases seqPass2Step_shape ws2 ml mr st m with heq | ⟨hmem, heq⟩ |
        ⟨q, hmem, hsub, hq, heq⟩
      · rw [heq]
        refine ⟨?_, ?_, ?_, ?_, ?_⟩
        · intro p q hpq
          exact ⟨(HP1 p q hpq).1, by have := (HP1 p q hpq).2; omega⟩
        · intro p hp
          have := HP2 p hp; omega
        · intro p hp
          exact (HQ p hp).imp (fun hh => by omega) id
        · intro h
          exact HG1 (by omega)
        · intro h
          exact HG3 (by omega)
      · rw [heq]
        refine ⟨?_, ?_, ?_, ?_, ?_⟩
        · intro p q hpq
          rcases List.mem_append.mp hpq with h | h
          · exact ⟨(HP1 p q h).1, by have := (HP1 p q h).2; omega⟩
          · exact Emit.noConfusion (List.mem_singleton.mp h)
        · intro p hp
          rcases List.mem_append.mp hp with h | h
          · have := HP2 p h; omega
          · injection List.mem_singleton.mp h with hh; omega
        · intro p hp
          rcases List.mem_append.mp hp with h | h
          · rcases HQ p h with h2 | ⟨q, h2⟩
            · exact Or.inl (by omega)
            · exact Or.inr ⟨q, List.mem_append_left _ h2⟩
          · rcases List.mem_singleton.mp h with rfl
            exact Or.inl (by omega)
        · intro h
          exact List.mem_append_left _ (HG1 (by omega))
        · intro h
          have hold := HG3 (by omega)
          constructor
          · intro hs
            rcases List.mem_append.mp hs with h2 | h2
            · exact hold.mp h2
            · injection List.mem_singleton.mp h2 with hh
              exact absurd hh.symm hmi
          · intro hmlt
            exact List.mem_append_left _ (hold.mpr hmlt)
      · rw [heq]
        refine ⟨?_, ?_, ?_, ?_, ?_⟩
        · intro p q' hpq
          rcases List.mem_append.mp hpq with h | h
          · exact ⟨(HP1 p q' h).1, by have := (HP1 p q' h).2; omega⟩
          · injection List.mem_singleton.mp h with h1 h2
            rw [h1, h2]
            exact ⟨hsub, by omega⟩
        · intro p hp
          rcases List.mem_append.mp hp with h | h
          · have := HP2 p h; omega
          · exact Emit.noConfusion (List.mem_singleton.mp h)
        · intro p hp
          rcases List.mem_append.mp hp with h | h
          · rcases HQ p h with h2 | ⟨q', h2⟩
            · exact Or.inl (by omega)
            · exact Or.inr ⟨q', List.mem_append_left _ h2⟩
          · rcases List.mem_cons.mp h with rfl | h2
            · exact Or.inl (by omega)
            · rcases List.mem_singleton.mp h2 with rfl
              exact Or.inr ⟨m, List.mem_append_right _ (List.mem_singleton.mpr rfl)⟩
        · intro h
          exact List.mem_append_left _ (HG1 (by omega))
        · intro h
          have hold := HG3 (by omega)
          constructor
          · intro hs
            rcases List.mem_append.mp hs with h2 | h2
            · exact hold.mp h2
            · exact Emit.noConfusion (List.mem_singleton.mp h2)
          · intro hmlt
            exact List.mem_append_left _ (hold.mpr hmlt)

/-- Conclusions of the second pass for the overwritten pair of left rows:
`j` is paired with `r0`, `i` is paired with nothing on either side, and `i`
is emitted alone exactly when `merge_left` holds. -/
theorem seqPass2_of_overwrite (ws ws2 : List Record) (i j r0 : Nat) (ml mr : Bool)
    (hij : i < j) (hjr : j < r0) (hrlen2 : r0 < ws2.length)
    (hcleanws : ∀ p, (ws.getD p ⟨[]⟩).hasKey "sub_record" = false)
    (hshape : ∀ p, SubShape ws p (ws2.getD p ⟨[]⟩))
    (hrefr0 : ∀ p, (ws2.getD p ⟨[]⟩).get "sub_record" = Value.ref r0 → p = j)
    (hi2 : ws2.getD i ⟨[]⟩ = (ws.getD i ⟨[]⟩).add "sub_record" Value.none)
    (hj2 : ws2.getD j ⟨[]⟩ = (ws.getD j ⟨[]⟩).add "sub_record" (Value.ref r0))
    (hiL : (ws.getD i ⟨[]⟩).get "side" = LEFTv)
    (hiS : truthy ((ws.getD i ⟨[]⟩).get "has_merge_stamp") = true)
    (hiV : truthy ((ws.getD i ⟨[]⟩).get "has_valid_join_key") = true)
    (hjL : (ws.getD j ⟨[]⟩).get "side" = LEFTv)
    (hjS : truthy ((ws.getD j ⟨[]⟩).get "has_merge_stamp") = true)
    (hjV : truthy ((ws.getD j ⟨[]⟩).get "has_valid_join_key") = true) :
    Emit.pair j r0 ∈ seqPass2 ws2 ml mr ∧
    (∀ x, ¬ Emit.pair i x ∈ seqPass2 ws2 ml mr) ∧
    (∀ x, ¬ Emit.pair x i ∈ seqPass2 ws2 ml mr) ∧
    (Emit.single i ∈ seqPass2 ws2 ml mr ↔ ml = true) := by
  have main : ∀ n, seqInv2 ws2 i j r0 ml n
      ((List.range n).foldl (seqPass2Step ws2 ml mr) ([], [])) := by
    intro n
    induction n with
    | zero =>
      rw [List.range_zero]
      simp only [List.foldl_nil]
      unfold seqInv2
      refine ⟨?_, ?_, ?_, ?_, ?_⟩
      · intro p q h
        exact absurd h (List.not_mem_nil _)
      · intro p h
        exact absurd h (List.not_mem_nil _)
      · intro p h
        exact absurd h (List.not_mem_nil _)
      · intro h
        exact absurd h (by omega)
      · intro h
        exact absurd h (by omega)
    | succ m ih =>
      rw [List.range_succ, List.foldl_append, List.foldl_cons, List.foldl_nil]
      exact seqInv2_step ws ws2 i j r0 ml mr m _ hij hjr hcleanws hshape hrefr0 hi2 hj2
        hiL hiS hiV hjL hjS hjV ih
  have hfin := main ws2.length
  unfold seqInv2 at hfin
  obtain ⟨HP1, HP2, HQ, HG1, HG3⟩ := hfin
  have hi2sub : (ws2.getD i ⟨[]⟩).get "sub_record" = Value.none := by
    rw [hi2, Record.get_add_self]
  refine ⟨?_, ?_, ?_, ?_⟩
  · unfold seqPass2
    exact HG1 (by omega)
  · intro x hx
    unfold seqPass2 at hx
    have h1 := (HP1 i x hx).1
    rw [hi2sub] at h1
    exact Value.noConfusion h1
  · intro x hx
    unfold seqPass2 at hx
    have h1 := (HP1 x i hx).1
    rcases hshape x with hcase | hcase | ⟨q', hq', hcase⟩
    · rw [hcase, Record.get_of_hasKey_false _ _ (hcleanws x)] at h1
      exact Value.noConfusion h1
    · rw [hcase, Record.get_add_self] at h1
      exact Value.noConfusion h1
    · rw [hcase, Record.get_add_self] at h1
      injection h1 with hh
      obtain ⟨hs, _⟩ := hq'
      rw [hh, hiL] at hs
      exact absurd hs (by decide)
  · unfold seqPass2
    exact HG3 (by omega)

/-- C9: in `merge_sequencial` with a join key, when two left rows `i < j` of
the sorted working list share the join value `v` and both precede the first
matching right row `r0` (with no further left row with value `v` between `j`
and `r0`), only the later left row `j` is paired with `r0`; the earlier left
row `i` is paired with nothing on either side and is emitted alone exactly
when `how` is `left` or `outer`. -/
theorem C9_pending_overwrite (ws : List Record) (k : String) (i j r0 : Nat) (v : Value)
    (how : String)
    (hk : ¬ k = "sub_record")
    (hij : i < j) (hjr : j < r0) (hrlen : r0 < ws.length)
    (hclean : ∀ p, p < ws.length → (ws.getD p ⟨[]⟩).hasKey "sub_record" = false)
    (hiL : (ws.getD i ⟨[]⟩).get "side" = LEFTv)
    (hiS : truthy ((ws.getD i ⟨[]⟩).get "has_merge_stamp") = true)
    (hiV : truthy ((ws.getD i ⟨[]⟩).get "has_valid_join_key") = true)
    (hiJ : getJoinValue (some k) (ws.getD i ⟨[]⟩) = some v)
    (hjL : (ws.getD j ⟨[]⟩).get "side" = LEFTv)
    (hjS : truthy ((ws.getD j ⟨[]⟩).get "has_merge_stamp") = true)
    (hjV : truthy ((ws.getD j ⟨[]⟩).get "has_valid_join_key") = true)
    (hjJ : getJoinValue (some k) (ws.getD j ⟨[]⟩) = some v)
    (hrR : (ws.getD r0 ⟨[]⟩).get "side" = RIGHTv)
    (hrS : truthy ((ws.getD r0 ⟨[]⟩).get "has_merge_stamp") = true)
    (hrJ : getJoinValue (some k) (ws.getD r0 ⟨[]⟩) = some v)
    (hnoleft : ∀ p, p < r0 → j < p →
      ¬ (leftStampRow (ws.getD p ⟨[]⟩) ∧ getJoinValue (some k) (ws.getD p ⟨[]⟩) = some v))
    (hr0min : ∀ p, p < r0 →
      ¬ (rightStampRow (ws.getD p ⟨[]⟩) ∧ getJoinValue (some k) (ws.getD p ⟨[]⟩) = some v)) :
    Emit.pair j r0 ∈ seqPass2 (seqPass1 (some k) ws)
      (how == "left" || how == "outer") (how == "right" || how == "outer") ∧
    (∀ x, ¬ Emit.pair i x ∈ seqPass2 (seqPass1 (some k) ws)
      (how == "left" || how == "outer") (how == "right" || how == "outer")) ∧
    (∀ x, ¬ Emit.pair x i ∈ seqPass2 (seqPass1 (some k) ws)
      (how == "left" || how == "outer") (how == "right" || how == "outer")) ∧
    (Emit.single i ∈ seqPass2 (seqPass1 (some k) ws)
      (how == "left" || how == "outer") (how == "right" || how == "outer")
        ↔ (how = "left" ∨ how = "outer")) := by
  have hclean' : ∀ p, (ws.getD p ⟨[]⟩).hasKey "sub_record" = false := by
    intro p
    by_cases hp : p < ws.length
    · exact hclean p hp
    · rw [List.getD_eq_default _ _ (le_of_not_lt hp)]
      rfl
  obtain ⟨hshlen, hshape⟩ := seqPass1_shape (some k) ws
  obtain ⟨hi2, hj2, hrefr0⟩ := seqPass1_pending_overwrite ws k i j r0 v hk hij hjr hrlen
    hclean hiL hiS hiJ hjL hjS hjJ hrR hrS hrJ hnoleft hr0min
  have hrlen2 : r0 < (seqPass1 (some k) ws).length := by rw [hshlen]; exact hrlen
  obtain ⟨h1, h2, h3, h4⟩ := seqPass2_of_overwrite ws (seqPass1 (some k) ws) i j r0
    (how == "left" || how == "outer") (how == "right" || how == "outer")
    hij hjr hrlen2 hclean' hshape hrefr0 hi2 hj2 hiL hiS hiV hjL hjS hjV
  exact ⟨h1, h2, h3, h4.trans (by simp)⟩

/-- Witness: on `c9ws` with join key `key` and `how = inner`, row `1` is
paired with row `2`, row `0` is paired with nothing, and row `0` is not
emitted alone. -/
theorem C9_pending_overwrite_witness :
    Emit.pair 1 2 ∈ seqPass2 (seqPass1 (some "key") c9ws)
      ("inner" == "left" || "inner" == "outer")
      ("inner" == "right" || "inner" == "outer") ∧
    (∀ x, ¬ Emit.pair 0 x ∈ seqPass2 (seqPass1 (some "key") c9ws)
      ("inner" == "left" || "inner" == "outer")
      ("inner" == "right" || "inner" == "outer")) ∧
    (∀ x, ¬ Emit.pair x 0 ∈ seqPass2 (seqPass1 (some "key") c9ws)
      ("inner" == "left" || "inner" == "outer")
      ("inner" == "right" || "inner" == "outer")) ∧
    (Emit.single 0 ∈ seqPass2 (seqPass1 (some "key") c9ws)
      ("inner" == "left" || "inner" == "outer")
      ("inner" == "right" || "inner" == "outer")
        ↔ ("inner" = "left" ∨ "inner" = "outer")) :=
  C9_pending_overwrite c9ws "key" 0 1 2 (Value.i 7) "inner" (by decide) (by decide)
    (by decide) (by decide) (by decide) (by decide) (by decide) (by decide) (by decide)
    (by decide) (by decide) (by decide) (by decide) (by decide) (by decide) (by decide)
    (by decide) (by decide)
